import Mathlib

/-!
# ModuleResource (CppMicroServices, `core/src/module/usModuleResource.cpp`)

A shallow embedding of the resource handle: the path normalisation done by the
constructor, the lookup in the resource tree, and the accessors.

Modelling conventions

* `std::string` is a `List Char` (a finite sequence of `char` values).
* `std::size_t` is a `Nat` below `2 ^ 64`; `+` and `-` on it wrap modulo `2 ^ 64`
  (`size_add`, `size_sub`), and `std::string::npos` is `2 ^ 64 - 1`.
* `std::string::substr` throws `std::out_of_range` when `pos > size()`; the model
  returns `Except.error Exn.out_of_range` there.
* `ModuleResourceTree` is declared in `usModuleResourceTree_p.h`, which is not part
  of the sources at hand: the tree is a record of the query functions the handle
  calls.  Trees live in a store indexed by address; a `ModuleResourceTree*` is an
  `Option Nat` (`none` is `NULL`).
* Every query sent to a tree is appended to a trace, so that statements of the
  form "no query is issued" can be expressed.
* The accessors take the private record the handle points to. For the shared
  ownership of that record, `Memory` holds the live records by address and the
  handles constructed so far; `AtomicInt` (header `usAtomicInt_p.h`) and the macro
  `US_HASH_FUNCTION` are not part of the sources at hand either: the counter is
  modelled from the specification, the hash function is a parameter.
-/

namespace us

/-! ## Strings and `size_t` -/

/-- The `std::string` of the source: a sequence of characters. -/
abbrev string := List Char

/-- Number of values of `std::size_t` (64 bit). -/
def SIZE_MOD : Nat := 2 ^ 64

/-- The constant `std::string::npos`, that is `size_t(-1)`. -/
def npos : Nat := SIZE_MOD - 1

/-- Unsigned addition on `size_t`. -/
def size_add (a b : Nat) : Nat := (a + b) % SIZE_MOD

/-- Unsigned subtraction on `size_t` (wraps below zero). -/
def size_sub (a b : Nat) : Nat := (a + SIZE_MOD - b % SIZE_MOD) % SIZE_MOD

/-- What the C++ code can throw or trip over. -/
inductive Exn where
  | out_of_range
  | null_dereference
  deriving DecidableEq

/-- The character `'\0'`: the initial value of `lastChar`, and what `operator[]`
yields at `pos == size()`. -/
def nul : Char := Char.ofNat 0

/-- The expression `s[i]` (`std::string::operator[]`). -/
def charAt (s : string) (i : Nat) : Char := s.getD i nul

/-- Position of the first occurrence of `c` in `s`, if there is one. -/
def findFirst? (c : Char) : string → Option Nat
  | [] => none
  | x :: xs => if x = c then some 0 else (findFirst? c xs).map (· + 1)

/-- Position of the last occurrence of `c` in `s`, if there is one. -/
def findLast? (c : Char) : string → Option Nat
  | [] => none
  | x :: xs =>
    match findLast? c xs with
    | some i => some (i + 1)
    | none => if x = c then some 0 else none

/-- The call `s.find_first_of(c)`: the position found, or `npos`. -/
def find_first_of (s : string) (c : Char) : Nat := (findFirst? c s).getD npos

/-- The call `s.find_last_of(c)`: the position found, or `npos`. -/
def find_last_of (s : string) (c : Char) : Nat := (findLast? c s).getD npos

/-- The call `s.substr(pos, len)`: throws when `pos > size()`, otherwise the at most
`len` characters from `pos` on. -/
def substr (s : string) (pos len : Nat) : Except Exn string :=
  if pos > s.length then Except.error Exn.out_of_range
  else Except.ok ((s.drop pos).take len)

/-! ## The resource tree (external collaborator) -/

/-- The queries of `ModuleResourceTree` that the handle uses. `GetData` returns the
data pointer (`none` is `NULL`) together with the value written to `*size`;
`GetChildren node out` is the content of the out-vector after the call. -/
structure ModuleResourceTree where
  FindNode : string → Int
  IsDir : Int → Bool
  IsCompressed : Int → Bool
  GetData : Int → Option Nat × Int
  GetChildren : Int → List string → List string
  IsValid : Bool

/-- The trees in memory, by address. -/
abbrev TreeStore := Nat → ModuleResourceTree

/-- A query sent to a tree. -/
inductive Query where
  | FindNode (path : string)
  | IsDir (node : Int)
  | GetData (node : Int)
  | IsCompressed (node : Int)
  | GetChildren (node : Int)
  | IsValid
  deriving DecidableEq

/-- The queries issued so far, oldest first, each with the address of the tree. -/
abbrev Trace := List (Nat × Query)

/-! ## The private record -/

/-- The class `ModuleResourcePrivate`. -/
structure ModuleResourcePrivate where
  fileName : string
  path : string
  filePath : string
  resourceTree : Option Nat
  node : Int
  size : Int
  data : Option Nat
  children : List string
  isFile : Bool
  isCompressed : Bool
  ref : Int

/-- The constructor `ModuleResourcePrivate::ModuleResourcePrivate()`. -/
def ModuleResourcePrivate.new : ModuleResourcePrivate where
  fileName := []
  path := []
  filePath := []
  resourceTree := none
  node := -1
  size := 0
  data := none
  children := []
  isFile := false
  isCompressed := false
  ref := 1

/-! ## Construction from a path -/

/-- One iteration of the loop that removes duplicate `/`: the state is
`(lastChar, d->path)`. -/
def dedupStep (rawPath : string) (st : Char × string) (i : Nat) : Char × string :=
  if charAt rawPath i = '/' ∧ st.1 = '/' then st
  else (charAt rawPath i, st.2 ++ [charAt rawPath i])

/-- The loop `for (i = 0; i < rawPath.size(); ++i)` started with `lastChar = 0`
and the given content of `d->path`. -/
def dedupLoop (rawPath : string) (path : string) : Char × string :=
  (List.range rawPath.length).foldl (dedupStep rawPath) (nul, path)

/-- The part of the constructor that fills `fileName`, `path` and `filePath`
(lines 84 to 107). -/
def normalize (d : ModuleResourcePrivate) (_file : string) :
    Except Exn ModuleResourcePrivate := do
  let file := _file
  let file := if file.isEmpty then ['/'] else file
  let file := if charAt file 0 ≠ '/' then ['/'] ++ file else file
  let index := find_last_of file '/'
  let fileName ←
    if index < size_sub file.length 1 then substr file (size_add index 1) npos
    else pure d.fileName
  let rawPath ← substr file 0 (size_add index 1)
  let path := (dedupLoop rawPath d.path).2
  pure { d with fileName := fileName, path := path, filePath := path ++ fileName }

/-- The part of the constructor that resolves the node in the tree and caches its
metadata (lines 109 to 118). -/
def lookup (store : TreeStore) (d : ModuleResourcePrivate) :
    Except Exn (ModuleResourcePrivate × Trace) :=
  match d.resourceTree with
  | none => Except.error Exn.null_dereference
  | some t =>
    let tree := store t
    let d := { d with node := tree.FindNode d.filePath }
    let tr : Trace := [(t, Query.FindNode d.filePath)]
    if d.node ≠ -1 then
      let d := { d with isFile := !tree.IsDir d.node }
      let tr := tr ++ [(t, Query.IsDir d.node)]
      if d.isFile then
        let r := tree.GetData d.node
        let d := { d with data := r.1, size := r.2 }
        let tr := tr ++ [(t, Query.GetData d.node)]
        let d := { d with isCompressed := tree.IsCompressed d.node }
        let tr := tr ++ [(t, Query.IsCompressed d.node)]
        Except.ok (d, tr)
      else Except.ok (d, tr)
    else Except.ok (d, tr)

/-- The constructor `ModuleResource::ModuleResource(const std::string&,
ModuleResourceTree*)`: the new private record and the queries issued. -/
def ModuleResource.create (store : TreeStore) (_file : string) (resourceTree : Option Nat) :
    Except Exn (ModuleResourcePrivate × Trace) := do
  let d := { ModuleResourcePrivate.new with resourceTree := resourceTree }
  let d ← normalize d _file
  lookup store d

/-! ## Accessors (on the record the handle points to) -/

/-- `ModuleResource::operator==`. -/
def ModuleResource.eq (a b : ModuleResourcePrivate) : Bool :=
  decide (a.resourceTree = b.resourceTree) && decide (a.filePath = b.filePath)

/-- `ModuleResource::operator!=`. -/
def ModuleResource.ne (a b : ModuleResourcePrivate) : Bool :=
  !(ModuleResource.eq a b)

/-- `ModuleResource::IsValid`, with the queries it issues (`&&` short-circuits). -/
def ModuleResource.IsValid (store : TreeStore) (d : ModuleResourcePrivate) : Bool × Trace :=
  match d.resourceTree with
  | none => (false, [])
  | some t =>
    if (store t).IsValid then (decide (d.node > -1), [(t, Query.IsValid)])
    else (false, [(t, Query.IsValid)])

/-- `ModuleResource::IsCompressed`. -/
def ModuleResource.IsCompressed (d : ModuleResourcePrivate) : Bool := d.isCompressed

/-- `ModuleResource::GetName`. -/
def ModuleResource.GetName (d : ModuleResourcePrivate) : string := d.fileName

/-- `ModuleResource::GetPath`. -/
def ModuleResource.GetPath (d : ModuleResourcePrivate) : string := d.path

/-- `ModuleResource::GetResourcePath`. -/
def ModuleResource.GetResourcePath (d : ModuleResourcePrivate) : string := d.filePath

/-- `ModuleResource::GetBaseName`. -/
def ModuleResource.GetBaseName (d : ModuleResourcePrivate) : Except Exn string :=
  substr d.fileName 0 (find_first_of d.fileName '.')

/-- `ModuleResource::GetCompleteBaseName`. -/
def ModuleResource.GetCompleteBaseName (d : ModuleResourcePrivate) : Except Exn string :=
  substr d.fileName 0 (find_last_of d.fileName '.')

/-- `ModuleResource::GetSuffix`. -/
def ModuleResource.GetSuffix (d : ModuleResourcePrivate) : Except Exn string :=
  let index := find_last_of d.fileName '.'
  if index < size_sub d.fileName.length 1 then substr d.fileName (size_add index 1) npos
  else Except.ok []

/-- `ModuleResource::GetCompleteSuffix`. -/
def ModuleResource.GetCompleteSuffix (d : ModuleResourcePrivate) : Except Exn string :=
  let index := find_first_of d.fileName '.'
  if index < size_sub d.fileName.length 1 then substr d.fileName (size_add index 1) npos
  else Except.ok []

/-- `ModuleResource::IsDir`. -/
def ModuleResource.IsDir (d : ModuleResourcePrivate) : Bool := !d.isFile

/-- `ModuleResource::IsFile`. -/
def ModuleResource.IsFile (d : ModuleResourcePrivate) : Bool := d.isFile

/-- `ModuleResource::GetChildren`: the vector returned, the record afterwards (the
`children` cache is mutable) and the queries issued. -/
def ModuleResource.GetChildren (store : TreeStore) (d : ModuleResourcePrivate) :
    Except Exn (List string × ModuleResourcePrivate × Trace) :=
  if d.isFile then Except.ok (d.children, d, [])
  else
    let v := ModuleResource.IsValid store d
    if !v.1 then Except.ok (d.children, d, v.2)
    else if d.children.isEmpty then
      match d.resourceTree with
      | none => Except.error Exn.null_dereference
      | some t =>
        let d := { d with children := (store t).GetChildren d.node d.children }
        Except.ok (d.children, d, v.2 ++ [(t, Query.GetChildren d.node)])
    else Except.ok (d.children, d, v.2)

/-- `ModuleResource::GetSize`. -/
def ModuleResource.GetSize (d : ModuleResourcePrivate) : Int := d.size

/-- `ModuleResource::GetLastModified`. -/
def ModuleResource.GetLastModified (_d : ModuleResourcePrivate) : Int := -1

/-- `ModuleResource::GetData`, with the queries it issues. -/
def ModuleResource.GetData (store : TreeStore) (d : ModuleResourcePrivate) :
    Option Nat × Trace :=
  let v := ModuleResource.IsValid store d
  if !v.1 then (none, v.2) else (d.data, v.2)

/-! ## Reference definition of the specification -/

/-- Reference definition of separator collapsing: every maximal run of `/` is
replaced by one `/`, every other character is kept. -/
def collapseRuns : string → string
  | [] => []
  | c :: rest =>
    if c = '/' then '/' :: collapseRuns (rest.dropWhile (· = '/'))
    else c :: collapseRuns rest
termination_by s => s.length
decreasing_by
  all_goals simp_wf
  · exact Nat.lt_succ_of_le (List.dropWhile_sublist _).length_le

/-! ## Auxiliary definitions for the proofs -/

/-- The input of the constructor after the two statements that force a leading
`/` (the local variable `file` at line 87). -/
def forceLeading (s : string) : string :=
  let file := if s.isEmpty then ['/'] else s
  if charAt file 0 ≠ '/' then ['/'] ++ file else file

/-- What the duplicate-removal loop appends to `d->path` when it runs over `l` with
`lastChar = last`: a `/` is dropped exactly when the character before it is a `/`. -/
def dedupFrom : Char → string → string
  | _, [] => []
  | last, c :: cs =>
    if c = '/' ∧ last = '/' then dedupFrom c cs else c :: dedupFrom c cs

/-- No `/` of `l` directly follows a `/`, where `last` stands before `l`. -/
def noDup : Char → string → Prop
  | _, [] => True
  | last, c :: cs => ¬ (c = '/' ∧ last = '/') ∧ noDup c cs

/-- The body of the loop as a function of the character read. -/
def dedupChar (st : Char × string) (c : Char) : Char × string :=
  if c = '/' ∧ st.1 = '/' then st else (c, st.2 ++ [c])

/-- The record right after `d->resourceTree = resourceTree` (line 82). -/
def freshRecord (rt : Option Nat) : ModuleResourcePrivate :=
  { ModuleResourcePrivate.new with resourceTree := rt }

/-- The record after line 107, for `file = pre ++ "/" ++ post` with no `/` in `post`. -/
def normalized (rt : Option Nat) (pre post : string) : ModuleResourcePrivate :=
  { freshRecord rt with
    fileName := post
    path := dedupFrom nul (pre ++ ['/'])
    filePath := dedupFrom nul (pre ++ ['/']) ++ post }

/-- A tree that knows no path at all. -/
def emptyTree : ModuleResourceTree where
  FindNode := fun _ => -1
  IsDir := fun _ => true
  IsCompressed := fun _ => false
  GetData := fun _ => (none, 0)
  GetChildren := fun _ out => out
  IsValid := true

/-! ## The other constructors and operators -/

/-- The constructor `ModuleResource::ModuleResource()`: the record of a
default-constructed handle. -/
def ModuleResource.default : ModuleResourcePrivate := ModuleResourcePrivate.new

/-- The comparison `lhs < rhs` of two `std::string` values: lexicographic on the
characters, a proper beginning being smaller. -/
def string_lt : string → string → Bool
  | [], [] => false
  | [], _ :: _ => true
  | _ :: _, [] => false
  | a :: as, b :: bs =>
    if a < b then true else if b < a then false else string_lt as bs

/-- `ModuleResource::operator<`. -/
def ModuleResource.lt (a b : ModuleResourcePrivate) : Bool :=
  string_lt (ModuleResource.GetResourcePath a) (ModuleResource.GetResourcePath b)

/-- `ModuleResource::Hash`. The macro `US_HASH_FUNCTION(std::string, _)` is defined in
a configuration header outside the sources at hand; it is the parameter `hashFn`. -/
def ModuleResource.Hash (hashFn : string → Nat) (d : ModuleResourcePrivate) : Nat :=
  hashFn (ModuleResource.GetResourcePath d)

/-! ## Sample trees -/

/-- A tree that reports itself unusable although `FindNode` resolves every path to
the file node 0. -/
def invalidFileTree : ModuleResourceTree where
  FindNode := fun _ => 0
  IsDir := fun _ => false
  IsCompressed := fun _ => true
  GetData := fun _ => (some 4096, 5)
  GetChildren := fun _ out => out
  IsValid := false

/-- A usable tree whose `FindNode` answers `-2`, a negative value other than the
sentinel. -/
def negativeNodeTree : ModuleResourceTree where
  FindNode := fun _ => -2
  IsDir := fun _ => false
  IsCompressed := fun _ => true
  GetData := fun _ => (some 4096, 5)
  GetChildren := fun _ out => out
  IsValid := true

/-- A usable tree in which every path is the file node 0, five bytes at address
4096, compressed. -/
def oneFileTree : ModuleResourceTree where
  FindNode := fun _ => 0
  IsDir := fun _ => false
  IsCompressed := fun _ => true
  GetData := fun _ => (some 4096, 5)
  GetChildren := fun _ out => out
  IsValid := true

/-- A usable tree in which every path is the directory node 0, without children. -/
def emptyDirTree : ModuleResourceTree where
  FindNode := fun _ => 0
  IsDir := fun _ => true
  IsCompressed := fun _ => false
  GetData := fun _ => (none, 0)
  GetChildren := fun _ out => out
  IsValid := true

/-- Modelled from the spec: the class `AtomicInt` (header `usAtomicInt_p.h`, which is
not among the sources at hand). `Ref()` increments the shared reference count; the
value given is the new count. -/
def AtomicInt.Ref (value : Int) : Int := value + 1

/-- Modelled from the spec: the class `AtomicInt` (header `usAtomicInt_p.h`, which is
not among the sources at hand). `Deref()` decrements the shared reference count; the
result is the new count and whether it is non-zero, so that a holder releases the
record when the count drops to zero. -/
def AtomicInt.Deref (value : Int) : Int × Bool := (value - 1, decide (value - 1 ≠ 0))

/-- The memory: the live private records by address, the next address `new` hands
out, and the handles constructed so far. Handle number `h` is `handles[h]`: `some p`
for a live handle whose field `d` is the address `p`, `none` for a destroyed one. -/
structure Memory where
  heap : Nat → Option ModuleResourcePrivate
  next : Nat
  handles : List (Option Nat)

/-- No record, no handle. -/
def Memory.empty : Memory where
  heap := fun _ => none
  next := 0
  handles := []

/-- The field `d` of handle `h`, when `h` is live. -/
def Memory.d (m : Memory) (h : Nat) : Option Nat := m.handles.getD h none

/-- Number of live handles whose `d` is the address `p`. -/
def Memory.holders (m : Memory) (p : Nat) : Nat := m.handles.count (some p)

/-- The call `p->ref.Ref()`. -/
def Memory.Ref (m : Memory) (p : Nat) : Memory :=
  match m.heap p with
  | none => m
  | some r =>
    { m with heap := Function.update m.heap p (some { r with ref := AtomicInt.Ref r.ref }) }

/-- The call `p->ref.Deref()`: the memory afterwards and the value returned. -/
def Memory.Deref (m : Memory) (p : Nat) : Memory × Bool :=
  match m.heap p with
  | none => (m, true)
  | some r =>
    ({ m with
        heap := Function.update m.heap p (some { r with ref := (AtomicInt.Deref r.ref).1 }) },
      (AtomicInt.Deref r.ref).2)

/-- The statement `delete p`. -/
def Memory.delete (m : Memory) (p : Nat) : Memory :=
  { m with heap := Function.update m.heap p none }

/-- A constructor that initialises `d(new ModuleResourcePrivate)` and leaves the
record `r` in it: a new handle holding a new record. -/
def Memory.construct (m : Memory) (r : ModuleResourcePrivate) : Memory where
  heap := Function.update m.heap m.next (some r)
  next := m.next + 1
  handles := m.handles ++ [some m.next]

/-- The copy constructor `ModuleResource::ModuleResource(const ModuleResource&)`
applied to handle `resource`: a new handle with the same `d`. -/
def Memory.copyConstruct (m : Memory) (resource : Nat) : Memory :=
  match m.d resource with
  | none => m
  | some p =>
    let m := { m with handles := m.handles ++ [some p] }
    m.Ref p

/-- The destructor `ModuleResource::~ModuleResource()` run on handle `h`. -/
def Memory.destroy (m : Memory) (h : Nat) : Memory :=
  match m.d h with
  | none => m
  | some p =>
    let r := m.Deref p
    let m := if !r.2 then r.1.delete p else r.1
    { m with handles := m.handles.set h none }

/-- The assignment `ModuleResource::operator=` of handle `resource` to handle `h`. -/
def Memory.assign (m : Memory) (h resource : Nat) : Memory :=
  match m.d h, m.d resource with
  | some curr_d, some p =>
    let m := { m with handles := m.handles.set h (some p) }
    let m := m.Ref p
    let r := m.Deref curr_d
    if !r.2 then r.1.delete curr_d else r.1
  | _, _ => m

/-- The operations on handles. An operation that names a handle that is not live
is not a C++ program and leaves the memory as it is. -/
inductive Op where
  | construct
  | constructFrom (store : TreeStore) (file : string) (resourceTree : Option Nat)
  | copyConstruct (resource : Nat)
  | assign (h resource : Nat)
  | destroy (h : Nat)

/-- A new handle holding the record a constructor body has left; when the body has
not returned, no handle. -/
def Memory.constructResult (m : Memory) :
    Except Exn (ModuleResourcePrivate × Trace) → Memory
  | Except.ok (r, _) => m.construct r
  | Except.error _ => m

/-- The constructor from a path: a new handle holding the record that
`ModuleResource.create` leaves. -/
def Memory.constructFrom (m : Memory) (store : TreeStore) (file : string)
    (resourceTree : Option Nat) : Memory :=
  m.constructResult (ModuleResource.create store file resourceTree)

/-- One operation. -/
def Memory.step (m : Memory) : Op → Memory
  | Op.construct => m.construct ModuleResource.default
  | Op.constructFrom store file resourceTree => m.constructFrom store file resourceTree
  | Op.copyConstruct resource => m.copyConstruct resource
  | Op.assign h resource => m.assign h resource
  | Op.destroy h => m.destroy h

/-- A sequence of operations, from left to right. -/
def Memory.run (m : Memory) (ops : List Op) : Memory := ops.foldl Memory.step m

/-- The reference count of every live record is the number of live handles that
hold it and is positive; a released address is held by no handle; addresses not yet
handed out are free. -/
def Memory.Consistent (m : Memory) : Prop :=
  (∀ p r, m.heap p = some r → r.ref = (m.holders p : Int) ∧ 0 < m.holders p) ∧
  (∀ p, m.heap p = none → m.holders p = 0) ∧
  (∀ p, m.next ≤ p → m.heap p = none)

theorem npos_succ : npos + 1 = SIZE_MOD := by
  simp [npos, SIZE_MOD]

theorem size_add_one {i : Nat} (h : i < npos) : size_add i 1 = i + 1 := by
  have := npos_succ
  unfold size_add
  exact Nat.mod_eq_of_lt (by omega)

theorem size_sub_one_zero : size_sub 0 1 = npos := by
  simp [size_sub, npos, SIZE_MOD]

theorem size_sub_one_pos {n : Nat} (h0 : 0 < n) (h : n ≤ npos) : size_sub n 1 = n - 1 := by
  have h1 := npos_succ
  have h2 : (1 : Nat) % SIZE_MOD = 1 := Nat.mod_eq_of_lt (by omega)
  unfold size_sub
  rw [h2]
  have h3 : n + SIZE_MOD - 1 = (n - 1) + SIZE_MOD := by omega
  rw [h3, Nat.add_mod_right]
  exact Nat.mod_eq_of_lt (by omega)

/-! ## Searching a character -/

theorem findLast?_none_of_not_mem (c : Char) :
    ∀ s : string, c ∉ s → findLast? c s = none
  | [], _ => rfl
  | x :: xs, h => by
    have hx : ¬ x = c := fun e => h (by simp [e])
    have hxs : c ∉ xs := fun e => h (List.mem_cons_of_mem _ e)
    simp [findLast?, findLast?_none_of_not_mem c xs hxs, hx]

theorem findLast?_append (c : Char) (post : string) (hpost : c ∉ post) :
    ∀ pre : string, findLast? c (pre ++ c :: post) = some pre.length
  | [] => by simp [findLast?, findLast?_none_of_not_mem c post hpost]
  | x :: pre => by simp [findLast?, findLast?_append c post hpost pre]

theorem findFirst?_none_of_not_mem (c : Char) :
    ∀ s : string, c ∉ s → findFirst? c s = none
  | [], _ => rfl
  | x :: xs, h => by
    have hx : ¬ x = c := fun e => h (by simp [e])
    have hxs : c ∉ xs := fun e => h (List.mem_cons_of_mem _ e)
    simp [findFirst?, findFirst?_none_of_not_mem c xs hxs, hx]

theorem findFirst?_append (c : Char) (post : string) :
    ∀ pre : string, c ∉ pre → findFirst? c (pre ++ c :: post) = some pre.length
  | [], _ => by simp [findFirst?]
  | x :: pre, h => by
    have hx : ¬ x = c := fun e => h (by simp [e])
    have hpre : c ∉ pre := fun e => h (List.mem_cons_of_mem _ e)
    simp [findFirst?, findFirst?_append c post pre hpre, hx]

/-- A list containing `c` splits at the last occurrence of `c`. -/
theorem exists_last_split (c : Char) :
    ∀ s : string, c ∈ s → ∃ pre post, s = pre ++ c :: post ∧ c ∉ post
  | [], h => by simp at h
  | x :: xs, h => by
    by_cases hxs : c ∈ xs
    · obtain ⟨pre, post, e, hp⟩ := exists_last_split c xs hxs
      exact ⟨x :: pre, post, by simp [e], hp⟩
    · have hx : c = x := by
        rcases List.mem_cons.mp h with e | e
        · exact e
        · exact absurd e hxs
      exact ⟨[], xs, by simp [hx], hxs⟩

/-- The split at the last occurrence is unique. -/
theorem last_split_unique (c : Char) :
    ∀ (pre pre2 post post2 : string), pre ++ c :: post = pre2 ++ c :: post2 →
      c ∉ post → c ∉ post2 → pre = pre2 ∧ post = post2
  | [], [], post, post2, e, _, _ => by simpa using e
  | [], y :: pre2, post, post2, e, h, _ => by
    simp at e
    exact absurd (by rw [e.2]; simp) h
  | x :: pre, [], post, post2, e, _, h2 => by
    simp at e
    exact absurd (by rw [← e.2]; simp) h2
  | x :: pre, y :: pre2, post, post2, e, h, h2 => by
    simp at e
    obtain ⟨r1, r2⟩ := last_split_unique c pre pre2 post post2 e.2 h h2
    exact ⟨by rw [e.1, r1], r2⟩

theorem find_last_of_split (c : Char) (pre post : string) (hpost : c ∉ post) :
    find_last_of (pre ++ c :: post) c = pre.length := by
  simp [find_last_of, findLast?_append c post hpost pre]

theorem find_last_of_absent (c : Char) (s : string) (h : c ∉ s) :
    find_last_of s c = npos := by
  simp [find_last_of, findLast?_none_of_not_mem c s h]

theorem find_first_of_split (c : Char) (pre post : string) (hpre : c ∉ pre) :
    find_first_of (pre ++ c :: post) c = pre.length := by
  simp [find_first_of, findFirst?_append c post pre hpre]

theorem find_first_of_absent (c : Char) (s : string) (h : c ∉ s) :
    find_first_of s c = npos := by
  simp [find_first_of, findFirst?_none_of_not_mem c s h]

/-! ## Substrings -/

theorem substr_from (pre post : string) (h : post.length ≤ npos) :
    substr (pre ++ post) pre.length npos = Except.ok post := by
  unfold substr
  rw [if_neg (by simp)]
  simp [List.take_of_length_le h]

theorem substr_upto (pre post : string) :
    substr (pre ++ post) 0 pre.length = Except.ok pre := by
  unfold substr
  rw [if_neg (by simp)]
  simp

theorem substr_all (s : string) (h : s.length ≤ npos) :
    substr s 0 npos = Except.ok s := by
  unfold substr
  rw [if_neg (by simp)]
  simp [List.take_of_length_le h]

/-! ## The duplicate-removal loop -/

/-- A counted loop reading `l[i]` is a left fold over `l`. -/
theorem foldl_range_charAt {σ : Type} (f : σ → Char → σ) (l : string) :
    ∀ (n : Nat), n ≤ l.length → ∀ init : σ,
      (List.range n).foldl (fun st i => f st (charAt l i)) init = (l.take n).foldl f init
  | 0, _, init => by simp
  | n + 1, hn, init => by
    have hlt : n < l.length := hn
    have ih := foldl_range_charAt f l n (Nat.le_of_lt hlt) init
    rw [List.range_succ, List.foldl_append, ih, List.take_succ, List.foldl_append]
    simp [charAt, List.getD, List.getElem?_eq_getElem hlt]

theorem getLastD_cons (c last : Char) :
    ∀ cs : string, (c :: cs).getLast?.getD last = cs.getLast?.getD c
  | [] => rfl
  | c2 :: cs => by
    rw [List.getLast?_cons_cons, List.getLast?_eq_getLast (c2 :: cs) (List.cons_ne_nil _ _)]
    rfl

theorem dedupFrom_cons_pos {c last : Char} (cs : string) (h : c = '/' ∧ last = '/') :
    dedupFrom last (c :: cs) = dedupFrom c cs := by
  rw [dedupFrom, if_pos h]

theorem dedupFrom_cons_neg {c last : Char} (cs : string) (h : ¬ (c = '/' ∧ last = '/')) :
    dedupFrom last (c :: cs) = c :: dedupFrom c cs := by
  rw [dedupFrom, if_neg h]

theorem foldl_dedupChar :
    ∀ (l : string) (last : Char) (acc : string),
      l.foldl dedupChar (last, acc) = (l.getLast?.getD last, acc ++ dedupFrom last l)
  | [], last, acc => by simp [dedupFrom]
  | c :: cs, last, acc => by
    have ih := foldl_dedupChar cs
    by_cases h : c = '/' ∧ last = '/'
    · have e : dedupChar (last, acc) c = (c, acc) := by
        simp [dedupChar, h]
      rw [List.foldl_cons, e, ih, getLastD_cons, dedupFrom_cons_pos cs h]
    · have e : dedupChar (last, acc) c = (c, acc ++ [c]) := by
        simp only [dedupChar, if_neg h]
      rw [List.foldl_cons, e, ih, getLastD_cons, dedupFrom_cons_neg cs h]
      simp

theorem dedupLoop_eq (rawPath path : string) :
    (dedupLoop rawPath path).2 = path ++ dedupFrom nul rawPath := by
  have h := foldl_range_charAt dedupChar rawPath rawPath.length (Nat.le_refl _) (nul, path)
  have e : (fun st i => dedupChar st (charAt rawPath i)) = dedupStep rawPath := by
    funext st i
    rfl
  rw [e, List.take_length] at h
  unfold dedupLoop
  rw [h, foldl_dedupChar]

theorem dedupFrom_append :
    ∀ (a b : string) (last : Char),
      dedupFrom last (a ++ b) = dedupFrom last a ++ dedupFrom (a.getLast?.getD last) b
  | [], b, last => by simp [dedupFrom]
  | c :: cs, b, last => by
    have ih := dedupFrom_append cs b c
    by_cases h : c = '/' ∧ last = '/'
    · rw [List.cons_append, dedupFrom_cons_pos _ h, ih, dedupFrom_cons_pos _ h, getLastD_cons]
    · rw [List.cons_append, dedupFrom_cons_neg _ h, ih, dedupFrom_cons_neg _ h, getLastD_cons]
      rfl

theorem dedupFrom_no_slash :
    ∀ (l : string) (last : Char), '/' ∉ l → dedupFrom last l = l
  | [], _, _ => rfl
  | c :: cs, last, h => by
    have hc : ¬ c = '/' := fun e => h (by simp [e])
    have hcs : '/' ∉ cs := fun e => h (List.mem_cons_of_mem _ e)
    simp [dedupFrom, hc, dedupFrom_no_slash cs c hcs]

theorem noDup_dedupFrom :
    ∀ (l : string) (last : Char), noDup last (dedupFrom last l)
  | [], _ => trivial
  | c :: cs, last => by
    by_cases h : c = '/' ∧ last = '/'
    · rw [dedupFrom, if_pos h]
      have ih := noDup_dedupFrom cs c
      rw [h.1] at ih ⊢
      rw [h.2]
      exact ih
    · rw [dedupFrom, if_neg h]
      exact ⟨h, noDup_dedupFrom cs c⟩

theorem dedupFrom_of_noDup :
    ∀ (l : string) (last : Char), noDup last l → dedupFrom last l = l
  | [], _, _ => rfl
  | c :: cs, last, h => by
    rw [dedupFrom, if_neg h.1, dedupFrom_of_noDup cs c h.2]

theorem noDup_no_double :
    ∀ (u : string) (last : Char) (v : string), ¬ noDup last (u ++ '/' :: '/' :: v)
  | [], last, v => by
    intro h
    exact h.2.1 ⟨rfl, rfl⟩
  | c :: u, last, v => by
    intro h
    exact noDup_no_double u c v h.2

theorem dedupFrom_getLast? (last : Char) (hlast : last ≠ '/') :
    ∀ l : string, (dedupFrom last l).getLast? = l.getLast? := by
  intro l
  induction l using List.reverseRecOn with
  | nil => rfl
  | append_singleton l a ih =>
    rw [dedupFrom_append]
    by_cases h : a = '/' ∧ l.getLast?.getD last = '/'
    · have e : dedupFrom (l.getLast?.getD last) [a] = [] := by
        simp [dedupFrom, h]
      rw [e, List.append_nil, ih]
      cases hl : l.getLast? with
      | none =>
        rw [hl] at h
        exact absurd h.2 hlast
      | some x =>
        rw [hl] at h
        simp at h
        simp [h.1, h.2]
    · have e : dedupFrom (l.getLast?.getD last) [a] = [a] := by
        simp only [dedupFrom, if_neg h]
      rw [e]
      simp

/-- The loop computes the reference collapsing of runs. -/
theorem dedupFrom_eq_collapseRuns :
    ∀ (l : string) (last : Char),
      (last ≠ '/' → dedupFrom last l = collapseRuns l) ∧
      (last = '/' → dedupFrom last l = collapseRuns (l.dropWhile (· = '/')))
  | [], last => by simp [dedupFrom, collapseRuns]
  | c :: cs, last => by
    have ih := dedupFrom_eq_collapseRuns cs c
    by_cases hc : c = '/'
    · constructor
      · intro hl
        have hn : ¬ (c = '/' ∧ last = '/') := fun h => hl h.2
        rw [dedupFrom, if_neg hn, (ih.2 hc), collapseRuns, if_pos hc, hc]
      · intro hl
        rw [dedupFrom, if_pos ⟨hc, hl⟩, (ih.2 hc)]
        simp [hc]
    · have hn : ¬ (c = '/' ∧ last = '/') := fun h => hc h.1
      constructor
      · intro _
        rw [dedupFrom, if_neg hn, (ih.1 hc), collapseRuns, if_neg hc]
      · intro _
        rw [dedupFrom, if_neg hn, (ih.1 hc)]
        simp [hc, collapseRuns]

/-! ## The normalisation done by the constructor -/

theorem forceLeading_eq (s : string) :
    forceLeading s = if s.head? = some '/' then s else '/' :: s := by
  cases s with
  | nil => simp [forceLeading, charAt]
  | cons c cs =>
    by_cases h : c = '/'
    · simp [forceLeading, charAt, h]
    · simp [forceLeading, charAt, h]

theorem forceLeading_head (s : string) : ∃ rest, forceLeading s = '/' :: rest := by
  rw [forceLeading_eq]
  by_cases h : s.head? = some '/'
  · rw [if_pos h]
    cases s with
    | nil => simp at h
    | cons c cs =>
      simp at h
      exact ⟨cs, by rw [h]⟩
  · rw [if_neg h]
    exact ⟨s, rfl⟩

theorem forceLeading_length (s : string) : (forceLeading s).length ≤ s.length + 1 := by
  rw [forceLeading_eq]
  split <;> simp

/-- The constructor's normalisation, in terms of the split of `file` at its last `/`. -/
theorem normalize_split (d : ModuleResourcePrivate) (s pre post : string)
    (hf : forceLeading s = pre ++ '/' :: post) (hpost : '/' ∉ post)
    (hlen : (forceLeading s).length ≤ npos) (hd1 : d.fileName = []) (hd2 : d.path = []) :
    normalize d s = Except.ok { d with
      fileName := post
      path := dedupFrom nul (pre ++ ['/'])
      filePath := dedupFrom nul (pre ++ ['/']) ++ post } := by
  have hf2 := hf
  unfold forceLeading at hf2
  simp only [] at hf2
  unfold normalize
  rw [hf] at hlen
  have hl : (pre ++ '/' :: post).length = pre.length + post.length + 1 := by simp; omega
  have hidx : find_last_of (pre ++ '/' :: post) '/' = pre.length := find_last_of_split _ _ _ hpost
  have hadd : size_add pre.length 1 = pre.length + 1 := size_add_one (by omega)
  have hsub : size_sub (pre ++ '/' :: post).length 1 = pre.length + post.length := by
    rw [size_sub_one_pos (by omega) hlen, hl]
    rfl
  have hraw : substr (pre ++ '/' :: post) 0 (pre.length + 1) = Except.ok (pre ++ ['/']) := by
    have := substr_upto (pre ++ ['/']) post
    simpa using this
  have hname : substr (pre ++ '/' :: post) (pre.length + 1) npos = Except.ok post := by
    have := substr_from (pre ++ ['/']) post (by omega)
    simpa using this
  simp only [hf2, hidx, hadd, hsub, hraw, hname]
  by_cases hp : post = []
  · subst hp
    simp [dedupLoop_eq, hd1, hd2, bind, Except.bind, pure, Except.pure]
  · have hpos : 0 < post.length := List.length_pos.mpr hp
    rw [if_pos (by omega)]
    simp [dedupLoop_eq, hd2, bind, Except.bind, pure, Except.pure]

theorem lookup_ok (store : TreeStore) (d : ModuleResourcePrivate) (t : Nat)
    (ht : d.resourceTree = some t) :
    ∃ d2 tr, lookup store d = Except.ok (d2, tr) ∧ d2.fileName = d.fileName ∧
      d2.path = d.path ∧ d2.filePath = d.filePath ∧ d2.resourceTree = some t ∧
      d2.children = d.children ∧ d2.node = (store t).FindNode d.filePath := by
  unfold lookup
  rw [ht]
  by_cases h1 : (store t).FindNode d.filePath = -1
  · simp [h1, ht]
  · by_cases h2 : (store t).IsDir ((store t).FindNode d.filePath) = true
    · simp [h1, h2, ht]
    · simp [h1, h2, ht]

theorem create_unfold (store : TreeStore) (s : string) (rt : Option Nat) :
    ModuleResource.create store s rt = normalize (freshRecord rt) s >>= lookup store := rfl

/-- Construction succeeds, and the three strings of the handle are those of the
split of `file` at its last `/`. -/
theorem create_split (store : TreeStore) (s : string) (t : Nat)
    (hlen : (forceLeading s).length ≤ npos) :
    ∃ d tr pre post, ModuleResource.create store s (some t) = Except.ok (d, tr) ∧
      forceLeading s = pre ++ '/' :: post ∧ '/' ∉ post ∧
      d.fileName = post ∧ d.path = dedupFrom nul (pre ++ ['/']) ∧
      d.filePath = dedupFrom nul (forceLeading s) ∧
      d.resourceTree = some t ∧ d.children = [] ∧ d.node = (store t).FindNode d.filePath := by
  obtain ⟨rest, hrest⟩ := forceLeading_head s
  obtain ⟨pre, post, hsplit, hpost⟩ :=
    exists_last_split '/' (forceLeading s) (by rw [hrest]; simp)
  have hn : normalize (freshRecord (some t)) s = Except.ok (normalized (some t) pre post) :=
    normalize_split (freshRecord (some t)) s pre post hsplit hpost hlen rfl rfl
  obtain ⟨d2, tr, hlk, h1, h2, h3, h4, h5, h6⟩ :=
    lookup_ok store (normalized (some t) pre post) t rfl
  refine ⟨d2, tr, pre, post, ?_, hsplit, hpost, h1, h2, ?_, h4, h5, ?_⟩
  · rw [create_unfold, hn]
    exact hlk
  · rw [h3, hsplit]
    have e : pre ++ '/' :: post = (pre ++ ['/']) ++ post := by simp
    rw [e, dedupFrom_append, dedupFrom_no_slash post _ hpost]
    rfl
  · rw [h6, h3]

theorem nul_ne_slash : nul ≠ '/' := by decide

theorem dedupFrom_length_le :
    ∀ (l : string) (last : Char), (dedupFrom last l).length ≤ l.length
  | [], _ => Nat.le_refl _
  | c :: cs, last => by
    have ih := dedupFrom_length_le cs c
    by_cases h : c = '/' ∧ last = '/'
    · rw [dedupFrom_cons_pos _ h]
      exact Nat.le_succ_of_le ih
    · rw [dedupFrom_cons_neg _ h]
      exact Nat.succ_le_succ ih

theorem dedupFrom_all_slash :
    ∀ l : string, (∀ c ∈ l, c = '/') → dedupFrom '/' l = []
  | [], _ => rfl
  | c :: cs, h => by
    have hc : c = '/' := h c (by simp)
    rw [dedupFrom_cons_pos _ ⟨hc, rfl⟩, hc]
    exact dedupFrom_all_slash cs (fun x hx => h x (List.mem_cons_of_mem _ hx))

theorem forceLeading_length_le_npos (s : string) (hs : s.length < npos) :
    (forceLeading s).length ≤ npos :=
  Nat.le_trans (forceLeading_length s) hs

/-- Everything the path claims need about a constructed handle. -/
theorem create_facts (store : TreeStore) (s : string) (t : Nat)
    (hlen : (forceLeading s).length ≤ npos) :
    ∃ d tr pre post, ModuleResource.create store s (some t) = Except.ok (d, tr) ∧
      forceLeading s = pre ++ '/' :: post ∧ '/' ∉ post ∧ d.fileName = post ∧
      d.filePath = d.path ++ d.fileName ∧ d.filePath = dedupFrom nul (forceLeading s) ∧
      (∃ q, d.path = q ++ ['/']) ∧ noDup nul d.path ∧ noDup nul d.filePath ∧
      d.path = dedupFrom nul (pre ++ ['/']) := by
  obtain ⟨d, tr, pre, post, hc, hsplit, hpost, hname, hpath, hfp, _, _, _⟩ :=
    create_split store s t hlen
  refine ⟨d, tr, pre, post, hc, hsplit, hpost, hname, ?_, hfp, ?_, ?_, ?_, hpath⟩
  · have e : pre ++ '/' :: post = (pre ++ ['/']) ++ post := by simp
    rw [hfp, hsplit, e, dedupFrom_append, dedupFrom_no_slash post _ hpost, hpath, hname]
  · have hl : d.path.getLast? = some '/' := by
      rw [hpath, dedupFrom_getLast? nul nul_ne_slash]
      simp
    have hne : d.path ≠ [] := by
      intro h0
      rw [h0] at hl
      simp at hl
    refine ⟨d.path.dropLast, ?_⟩
    have h1 := List.dropLast_append_getLast hne
    have h2 : d.path.getLast hne = '/' := by
      rw [List.getLast?_eq_getLast _ hne] at hl
      exact Option.some.inj hl
    rw [h2] at h1
    exact h1.symm
  · rw [hpath]
    exact noDup_dedupFrom _ _
  · rw [hfp]
    exact noDup_dedupFrom _ _

/-! ## The claims -/

/-- C1 (canonical form): for every input string `s` (short enough for `"/" + s` to be
a `std::string`) and every tree, construction succeeds and `GetResourcePath()` of the
handle starts with `/` and contains no two consecutive `/`. -/
theorem C1_canonical_form (store : TreeStore) (s : string) (t : Nat) (hs : s.length < npos) :
    ∃ d tr, ModuleResource.create store s (some t) = Except.ok (d, tr) ∧
      (∃ rest, ModuleResource.GetResourcePath d = '/' :: rest) ∧
      ∀ u v, ModuleResource.GetResourcePath d ≠ u ++ '/' :: '/' :: v := by
  obtain ⟨d, tr, pre, post, hc, _, _, _, _, hfp, _, _, hnd, _⟩ :=
    create_facts store s t (forceLeading_length_le_npos s hs)
  refine ⟨d, tr, hc, ?_, ?_⟩
  · obtain ⟨rest, hrest⟩ := forceLeading_head s
    have hn : ¬ (('/' : Char) = '/' ∧ nul = '/') := fun h => nul_ne_slash h.2
    refine ⟨dedupFrom '/' rest, ?_⟩
    unfold ModuleResource.GetResourcePath
    rw [hfp, hrest, dedupFrom_cons_neg _ hn]
  · intro u v h
    unfold ModuleResource.GetResourcePath at h
    rw [h] at hnd
    exact noDup_no_double u nul v hnd

/-- Witness of C1 at the input `a//b`. -/
theorem C1_canonical_form_witness :
    ['a', '/', '/', 'b'].length < npos ∧
    ∃ d tr, ModuleResource.create (fun _ => emptyTree) ['a', '/', '/', 'b'] (some 0)
        = Except.ok (d, tr) ∧
      (∃ rest, ModuleResource.GetResourcePath d = '/' :: rest) ∧
      ∀ u v, ModuleResource.GetResourcePath d ≠ u ++ '/' :: '/' :: v :=
  ⟨by decide, C1_canonical_form (fun _ => emptyTree) ['a', '/', '/', 'b'] 0 (by decide)⟩

/-- C2 (normalisation equals the reference definition): with `s'` equal to `s` when
`s` begins with `/` and to `/` followed by `s` otherwise, `GetResourcePath()` of the
handle built from `s` is `s'` with every maximal run of `/` replaced by one `/`. -/
theorem C2_normalisation_reference (store : TreeStore) (s : string) (t : Nat)
    (hs : s.length < npos) :
    ∃ d tr, ModuleResource.create store s (some t) = Except.ok (d, tr) ∧
      ModuleResource.GetResourcePath d =
        collapseRuns (if s.head? = some '/' then s else '/' :: s) := by
  obtain ⟨d, tr, pre, post, hc, _, _, _, _, hfp, _, _, _, _⟩ :=
    create_facts store s t (forceLeading_length_le_npos s hs)
  refine ⟨d, tr, hc, ?_⟩
  unfold ModuleResource.GetResourcePath
  rw [hfp, forceLeading_eq]
  exact (dedupFrom_eq_collapseRuns _ nul).1 nul_ne_slash

/-- Witness of C2 at the input `//a///b//`. -/
theorem C2_normalisation_reference_witness :
    "//a///b//".toList.length < npos ∧
    ∃ d tr, ModuleResource.create (fun _ => emptyTree) "//a///b//".toList (some 0)
        = Except.ok (d, tr) ∧
      ModuleResource.GetResourcePath d =
        collapseRuns (if "//a///b//".toList.head? = some '/' then "//a///b//".toList
          else '/' :: "//a///b//".toList) :=
  ⟨by decide, C2_normalisation_reference (fun _ => emptyTree) "//a///b//".toList 0 (by decide)⟩

/-- The example of the specification: `//a///b//` gives the resource path `/a/b/`,
the same directory path and an empty name. -/
theorem normalisation_example :
    (match ModuleResource.create (fun _ => emptyTree) "//a///b//".toList (some 0) with
      | Except.ok (d, _) => some (ModuleResource.GetResourcePath d, ModuleResource.GetPath d,
          ModuleResource.GetName d)
      | Except.error _ => none) = some ("/a/b/".toList, "/a/b/".toList, []) ∧
    collapseRuns "//a///b//".toList = "/a/b/".toList := by
  constructor
  · decide
  · simp [collapseRuns]

/-- C3 (idempotence): building a handle from `GetResourcePath()` of the handle built
from `s` succeeds and gives the same `GetResourcePath()`, `GetPath()` and `GetName()`. -/
theorem C3_normalisation_idempotent (store : TreeStore) (s : string) (t t2 : Nat)
    (hs : s.length < npos) :
    ∃ d tr, ModuleResource.create store s (some t) = Except.ok (d, tr) ∧
      ∃ d2 tr2, ModuleResource.create store (ModuleResource.GetResourcePath d) (some t2)
          = Except.ok (d2, tr2) ∧
        ModuleResource.GetResourcePath d2 = ModuleResource.GetResourcePath d ∧
        ModuleResource.GetPath d2 = ModuleResource.GetPath d ∧
        ModuleResource.GetName d2 = ModuleResource.GetName d := by
  have hlen := forceLeading_length_le_npos s hs
  obtain ⟨d, tr, pre, post, hc, hsplit, hpost, hname, hcat, hfp, ⟨q, hq⟩, hndp, hnd, _⟩ :=
    create_facts store s t hlen
  refine ⟨d, tr, hc, ?_⟩
  unfold ModuleResource.GetResourcePath ModuleResource.GetPath ModuleResource.GetName
  -- the resource path starts with a separator, so nothing is put in front of it
  have hhead : ∃ rest, d.filePath = '/' :: rest := by
    obtain ⟨rest, hrest⟩ := forceLeading_head s
    have hn : ¬ (('/' : Char) = '/' ∧ nul = '/') := fun h => nul_ne_slash h.2
    exact ⟨dedupFrom '/' rest, by rw [hfp, hrest, dedupFrom_cons_neg _ hn]⟩
  have hforce : forceLeading d.filePath = d.filePath := by
    obtain ⟨rest, hrest⟩ := hhead
    rw [forceLeading_eq, hrest]
    simp
  have hlen2 : (forceLeading d.filePath).length ≤ npos := by
    rw [hforce, hfp]
    exact Nat.le_trans (dedupFrom_length_le _ _) hlen
  obtain ⟨d2, tr2, pre2, post2, hc2, hsplit2, hpost2, hname2, _, hfp2, _, _, _, hpath2⟩ :=
    create_facts store d.filePath t2 hlen2
  refine ⟨d2, tr2, hc2, ?_, ?_, ?_⟩
  · rw [hfp2, hforce]
    exact dedupFrom_of_noDup _ _ hnd
  all_goals
    have hsp : q ++ '/' :: post = pre2 ++ '/' :: post2 := by
      rw [← hsplit2, hforce, hcat, hq, hname]
      simp
    obtain ⟨e1, e2⟩ := last_split_unique '/' q pre2 post post2 hsp hpost hpost2
  · rw [hpath2, ← e1, ← hq]
    exact dedupFrom_of_noDup _ _ hndp
  · rw [hname2, ← e2, hname]

/-- Witness of C3 at the input `a//b/`. -/
theorem C3_normalisation_idempotent_witness :
    "a//b/".toList.length < npos ∧
    ∃ d tr, ModuleResource.create (fun _ => emptyTree) "a//b/".toList (some 0)
        = Except.ok (d, tr) ∧
      ∃ d2 tr2, ModuleResource.create (fun _ => emptyTree) (ModuleResource.GetResourcePath d)
          (some 1) = Except.ok (d2, tr2) ∧
        ModuleResource.GetResourcePath d2 = ModuleResource.GetResourcePath d ∧
        ModuleResource.GetPath d2 = ModuleResource.GetPath d ∧
        ModuleResource.GetName d2 = ModuleResource.GetName d :=
  ⟨by decide, C3_normalisation_idempotent (fun _ => emptyTree) "a//b/".toList 0 1 (by decide)⟩

/-- C4 (path decomposition): for every input string, `GetResourcePath()` is
`GetPath()` followed by `GetName()`, `GetPath()` ends with `/` and `GetName()` contains
no `/`. -/
theorem C4_path_decomposition (store : TreeStore) (s : string) (t : Nat)
    (hs : s.length < npos) :
    ∃ d tr, ModuleResource.create store s (some t) = Except.ok (d, tr) ∧
      ModuleResource.GetResourcePath d = ModuleResource.GetPath d ++ ModuleResource.GetName d ∧
      (ModuleResource.GetPath d).getLast? = some '/' ∧
      '/' ∉ ModuleResource.GetName d := by
  obtain ⟨d, tr, pre, post, hc, _, hpost, hname, hcat, _, ⟨q, hq⟩, _, _, _⟩ :=
    create_facts store s t (forceLeading_length_le_npos s hs)
  refine ⟨d, tr, hc, hcat, ?_, ?_⟩
  · unfold ModuleResource.GetPath
    rw [hq]
    simp
  · unfold ModuleResource.GetName
    rw [hname]
    exact hpost

/-- Witness of C4 at the input `dir//file.txt`. -/
theorem C4_path_decomposition_witness :
    "dir//file.txt".toList.length < npos ∧
    ∃ d tr, ModuleResource.create (fun _ => emptyTree) "dir//file.txt".toList (some 0)
        = Except.ok (d, tr) ∧
      ModuleResource.GetResourcePath d = ModuleResource.GetPath d ++ ModuleResource.GetName d ∧
      (ModuleResource.GetPath d).getLast? = some '/' ∧
      '/' ∉ ModuleResource.GetName d :=
  ⟨by decide, C4_path_decomposition (fun _ => emptyTree) "dir//file.txt".toList 0 (by decide)⟩

/-- C5 (file-name rule): for every input string `s`, `GetName()` is the part of `s`
after its last `/`, the whole of `s` when `s` contains no `/`; it is empty exactly when
`s` is empty or ends with `/`. -/
theorem C5_file_name_rule (store : TreeStore) (s : string) (t : Nat) (hs : s.length < npos) :
    ∃ d tr, ModuleResource.create store s (some t) = Except.ok (d, tr) ∧
      (∀ pre post, s = pre ++ '/' :: post → '/' ∉ post → ModuleResource.GetName d = post) ∧
      ('/' ∉ s → ModuleResource.GetName d = s) ∧
      (ModuleResource.GetName d = [] ↔ s = [] ∨ s.getLast? = some '/') := by
  obtain ⟨d, tr, pre, post, hc, hsplit, hpost, hname, _, _, _, _, _, _⟩ :=
    create_facts store s t (forceLeading_length_le_npos s hs)
  unfold ModuleResource.GetName
  have hA : ∀ p q, s = p ++ '/' :: q → '/' ∉ q → d.fileName = q := by
    intro p q hpq hq
    rw [forceLeading_eq] at hsplit
    by_cases hh : s.head? = some '/'
    · rw [if_pos hh, hpq] at hsplit
      rw [hname, (last_split_unique '/' p pre q post hsplit hq hpost).2]
    · rw [if_neg hh, hpq] at hsplit
      have hsplit2 : ('/' :: p) ++ '/' :: q = pre ++ '/' :: post := hsplit
      rw [hname, (last_split_unique '/' ('/' :: p) pre q post hsplit2 hq hpost).2]
  have hB : '/' ∉ s → d.fileName = s := by
    intro hno
    have hh : ¬ s.head? = some '/' := by
      intro h
      cases s with
      | nil => simp at h
      | cons c cs =>
        simp at h
        exact hno (by simp [h])
    rw [forceLeading_eq, if_neg hh] at hsplit
    have hsplit2 : ([] : string) ++ '/' :: s = pre ++ '/' :: post := hsplit
    rw [hname, (last_split_unique '/' [] pre s post hsplit2 hno hpost).2]
  refine ⟨d, tr, hc, hA, hB, ?_⟩
  constructor
  · intro h0
    by_cases hs0 : s = []
    · exact Or.inl hs0
    · right
      rw [hname] at h0
      rw [h0, forceLeading_eq] at hsplit
      by_cases hh : s.head? = some '/'
      · rw [if_pos hh] at hsplit
        rw [hsplit]
        simp
      · rw [if_neg hh] at hsplit
        have h1 : ('/' :: s).getLast? = some '/' := by
          rw [hsplit]
          simp
        cases s with
        | nil => exact absurd rfl hs0
        | cons c cs =>
          rw [List.getLast?_cons_cons] at h1
          exact h1
  · rintro (h | h)
    · exact (hB (by rw [h]; simp)).trans h
    · have hne : s ≠ [] := by
        intro h0
        rw [h0] at h
        simp at h
      have h1 := List.dropLast_append_getLast hne
      have h2 : s.getLast hne = '/' := by
        rw [List.getLast?_eq_getLast _ hne] at h
        exact Option.some.inj h
      rw [h2] at h1
      exact hA s.dropLast [] h1.symm (by simp)

/-- Witness of C5 at the input `a/b/c.txt`. -/
theorem C5_file_name_rule_witness :
    "a/b/c.txt".toList.length < npos ∧
    ∃ d tr, ModuleResource.create (fun _ => emptyTree) "a/b/c.txt".toList (some 0)
        = Except.ok (d, tr) ∧
      (∀ pre post, "a/b/c.txt".toList = pre ++ '/' :: post → '/' ∉ post →
        ModuleResource.GetName d = post) ∧
      ('/' ∉ "a/b/c.txt".toList → ModuleResource.GetName d = "a/b/c.txt".toList) ∧
      (ModuleResource.GetName d = [] ↔
        "a/b/c.txt".toList = [] ∨ "a/b/c.txt".toList.getLast? = some '/') :=
  ⟨by decide, C5_file_name_rule (fun _ => emptyTree) "a/b/c.txt".toList 0 (by decide)⟩

/-- C6 (root handling): for every input made of `/` characters only (the empty string
included), the handle has resource path `/`, directory path `/` and an empty name. -/
theorem C6_root_handling (store : TreeStore) (s : string) (t : Nat) (hs : s.length < npos)
    (hall : ∀ c ∈ s, c = '/') :
    ∃ d tr, ModuleResource.create store s (some t) = Except.ok (d, tr) ∧
      ModuleResource.GetResourcePath d = ['/'] ∧ ModuleResource.GetPath d = ['/'] ∧
      ModuleResource.GetName d = [] := by
  obtain ⟨d, tr, pre, post, hc, hsplit, hpost, hname, hcat, hfp, _, _, _, _⟩ :=
    create_facts store s t (forceLeading_length_le_npos s hs)
  unfold ModuleResource.GetResourcePath ModuleResource.GetPath ModuleResource.GetName
  have hallf : ∀ c ∈ forceLeading s, c = '/' := by
    intro c hcm
    rw [forceLeading_eq] at hcm
    by_cases hh : s.head? = some '/'
    · rw [if_pos hh] at hcm
      exact hall c hcm
    · rw [if_neg hh] at hcm
      rcases List.mem_cons.mp hcm with e | e
      · exact e
      · exact hall c e
  have hpost0 : post = [] := by
    cases hp : post with
    | nil => rfl
    | cons x xs =>
      have hx : x ∈ forceLeading s := by
        rw [hsplit, hp]
        simp
      have hx2 : x = '/' := hallf x hx
      exact absurd (by rw [hp, hx2]; simp) hpost
  have hpath1 : d.filePath = ['/'] := by
    obtain ⟨rest, hrest⟩ := forceLeading_head s
    have hn : ¬ (('/' : Char) = '/' ∧ nul = '/') := fun h => nul_ne_slash h.2
    have hrall : ∀ c ∈ rest, c = '/' := fun c hcm =>
      hallf c (by rw [hrest]; exact List.mem_cons_of_mem _ hcm)
    rw [hfp, hrest, dedupFrom_cons_neg _ hn, dedupFrom_all_slash rest hrall]
  refine ⟨d, tr, hc, hpath1, ?_, by rw [hname, hpost0]⟩
  rw [hname, hpost0, List.append_nil] at hcat
  rw [← hcat, hpath1]

/-- Witness of C6 at the inputs `///`, the empty string and `/`. -/
theorem C6_root_handling_witness :
    (['/', '/', '/'].length < npos ∧ (∀ c ∈ ['/', '/', '/'], c = '/') ∧
      ∃ d tr, ModuleResource.create (fun _ => emptyTree) ['/', '/', '/'] (some 0)
          = Except.ok (d, tr) ∧
        ModuleResource.GetResourcePath d = ['/'] ∧ ModuleResource.GetPath d = ['/'] ∧
        ModuleResource.GetName d = []) ∧
    (∃ d tr, ModuleResource.create (fun _ => emptyTree) [] (some 0) = Except.ok (d, tr) ∧
        ModuleResource.GetResourcePath d = ['/'] ∧ ModuleResource.GetPath d = ['/'] ∧
        ModuleResource.GetName d = []) ∧
    (∃ d tr, ModuleResource.create (fun _ => emptyTree) ['/'] (some 0) = Except.ok (d, tr) ∧
        ModuleResource.GetResourcePath d = ['/'] ∧ ModuleResource.GetPath d = ['/'] ∧
        ModuleResource.GetName d = []) :=
  ⟨⟨by decide, by decide,
      C6_root_handling (fun _ => emptyTree) ['/', '/', '/'] 0 (by decide) (by decide)⟩,
    C6_root_handling (fun _ => emptyTree) [] 0 (by decide) (by decide),
    C6_root_handling (fun _ => emptyTree) ['/'] 0 (by decide) (by decide)⟩

/-- The tree pointer and the node of a constructed handle. -/
theorem create_tree (store : TreeStore) (s : string) (t : Nat) (hs : s.length < npos) :
    ∃ d tr, ModuleResource.create store s (some t) = Except.ok (d, tr) ∧
      d.resourceTree = some t := by
  obtain ⟨d, tr, _, _, hc, _, _, _, _, _, h4, _, _⟩ :=
    create_split store s t (forceLeading_length_le_npos s hs)
  exact ⟨d, tr, hc, h4⟩

/-- C7 (equality): `a == b` holds iff the two handles hold the same tree pointer and
the same resource path, and `a != b` is its negation; so handles built against the
same tree from strings with the same normal form are equal, and handles built against
different trees are unequal. -/
theorem C7_equality (store : TreeStore) (s1 s2 : string) (t1 t2 : Nat)
    (h1 : s1.length < npos) (h2 : s2.length < npos) :
    (∀ a b : ModuleResourcePrivate, ModuleResource.eq a b = true ↔
      (a.resourceTree = b.resourceTree ∧
        ModuleResource.GetResourcePath a = ModuleResource.GetResourcePath b)) ∧
    (∀ a b : ModuleResourcePrivate, ModuleResource.ne a b = !ModuleResource.eq a b) ∧
    ∃ a tra b trb, ModuleResource.create store s1 (some t1) = Except.ok (a, tra) ∧
      ModuleResource.create store s2 (some t2) = Except.ok (b, trb) ∧
      (t1 = t2 → ModuleResource.GetResourcePath a = ModuleResource.GetResourcePath b →
        ModuleResource.eq a b = true ∧ ModuleResource.ne a b = false) ∧
      (t1 ≠ t2 → ModuleResource.eq a b = false ∧ ModuleResource.ne a b = true) := by
  have hiff : ∀ a b : ModuleResourcePrivate, ModuleResource.eq a b = true ↔
      (a.resourceTree = b.resourceTree ∧
        ModuleResource.GetResourcePath a = ModuleResource.GetResourcePath b) := by
    intro a b
    simp [ModuleResource.eq, ModuleResource.GetResourcePath]
  refine ⟨hiff, fun a b => rfl, ?_⟩
  obtain ⟨a, tra, hca, hta⟩ := create_tree store s1 t1 h1
  obtain ⟨b, trb, hcb, htb⟩ := create_tree store s2 t2 h2
  refine ⟨a, tra, b, trb, hca, hcb, ?_, ?_⟩
  · intro ht hp
    have he : ModuleResource.eq a b = true := (hiff a b).2 ⟨by rw [hta, htb, ht], hp⟩
    exact ⟨he, by simp [ModuleResource.ne, he]⟩
  · intro ht
    have he : ModuleResource.eq a b = false := by
      cases hv : ModuleResource.eq a b with
      | false => rfl
      | true =>
        have h := ((hiff a b).1 hv).1
        rw [hta, htb] at h
        exact absurd (Option.some.inj h) ht
    exact ⟨he, by simp [ModuleResource.ne, he]⟩

/-- Witness of C7 at the inputs `a//b` and `/a/b` against the tree at address 0. -/
theorem C7_equality_witness :
    "a//b".toList.length < npos ∧ "/a/b".toList.length < npos ∧
    ((∀ a b : ModuleResourcePrivate, ModuleResource.eq a b = true ↔
      (a.resourceTree = b.resourceTree ∧
        ModuleResource.GetResourcePath a = ModuleResource.GetResourcePath b)) ∧
    (∀ a b : ModuleResourcePrivate, ModuleResource.ne a b = !ModuleResource.eq a b) ∧
    ∃ a tra b trb,
      ModuleResource.create (fun _ => emptyTree) "a//b".toList (some 0) = Except.ok (a, tra) ∧
      ModuleResource.create (fun _ => emptyTree) "/a/b".toList (some 0) = Except.ok (b, trb) ∧
      ((0 : Nat) = 0 →
        ModuleResource.GetResourcePath a = ModuleResource.GetResourcePath b →
        ModuleResource.eq a b = true ∧ ModuleResource.ne a b = false) ∧
      ((0 : Nat) ≠ 0 → ModuleResource.eq a b = false ∧ ModuleResource.ne a b = true)) :=
  ⟨by decide, by decide,
    C7_equality (fun _ => emptyTree) "a//b".toList "/a/b".toList 0 0 (by decide) (by decide)⟩

/-- The examples of the specification for equality: `a//b` and `/a/b` against one tree
are equal; the same path against two trees is not. -/
theorem equality_example :
    (match ModuleResource.create (fun _ => emptyTree) "a//b".toList (some 0),
        ModuleResource.create (fun _ => emptyTree) "/a/b".toList (some 0),
        ModuleResource.create (fun _ => emptyTree) "/a/b".toList (some 1) with
      | Except.ok (a, _), Except.ok (b, _), Except.ok (c, _) =>
        some (ModuleResource.eq a b, ModuleResource.ne a b, ModuleResource.eq b c,
          ModuleResource.ne b c)
      | _, _, _ => none) = some (true, false, false, true) := by
  decide

/-- C8 (base names): for every file name `n` (at most `npos` characters, as every
`std::string`), `GetBaseName()` is the part of `n` before its first `.` and
`GetCompleteBaseName()` the part before its last `.`; both are `n` when `n` has no `.`
(the empty name included). Neither call throws. -/
theorem C8_base_names (d : ModuleResourcePrivate) (hn : d.fileName.length ≤ npos) :
    (∀ pre post, d.fileName = pre ++ '.' :: post → '.' ∉ pre →
      ModuleResource.GetBaseName d = Except.ok pre) ∧
    (∀ pre post, d.fileName = pre ++ '.' :: post → '.' ∉ post →
      ModuleResource.GetCompleteBaseName d = Except.ok pre) ∧
    ('.' ∉ d.fileName →
      ModuleResource.GetBaseName d = Except.ok d.fileName ∧
      ModuleResource.GetCompleteBaseName d = Except.ok d.fileName) := by
  refine ⟨?_, ?_, ?_⟩
  · intro pre post hsplit hpre
    unfold ModuleResource.GetBaseName
    rw [hsplit, find_first_of_split _ _ _ hpre]
    exact substr_upto pre ('.' :: post)
  · intro pre post hsplit hpost
    unfold ModuleResource.GetCompleteBaseName
    rw [hsplit, find_last_of_split _ _ _ hpost]
    exact substr_upto pre ('.' :: post)
  · intro hno
    unfold ModuleResource.GetBaseName ModuleResource.GetCompleteBaseName
    rw [find_first_of_absent _ _ hno, find_last_of_absent _ _ hno]
    exact ⟨substr_all _ hn, substr_all _ hn⟩

/-- Witness of C8 at the names `archive.tar.gz` and `README`. -/
theorem C8_base_names_witness :
    "archive.tar.gz".toList.length ≤ npos ∧ "README".toList.length ≤ npos ∧
    ModuleResource.GetBaseName { ModuleResourcePrivate.new with
      fileName := "archive.tar.gz".toList } = Except.ok "archive".toList ∧
    ModuleResource.GetCompleteBaseName { ModuleResourcePrivate.new with
      fileName := "archive.tar.gz".toList } = Except.ok "archive.tar".toList ∧
    ModuleResource.GetBaseName { ModuleResourcePrivate.new with
      fileName := "README".toList } = Except.ok "README".toList ∧
    ModuleResource.GetCompleteBaseName { ModuleResourcePrivate.new with
      fileName := "README".toList } = Except.ok "README".toList :=
  ⟨by decide, by decide,
    (C8_base_names { ModuleResourcePrivate.new with fileName := "archive.tar.gz".toList }
      (by decide)).1 "archive".toList "tar.gz".toList rfl (by decide),
    (C8_base_names { ModuleResourcePrivate.new with fileName := "archive.tar.gz".toList }
      (by decide)).2.1 "archive.tar".toList "gz".toList rfl (by decide),
    ((C8_base_names { ModuleResourcePrivate.new with fileName := "README".toList }
      (by decide)).2.2 (by decide)).1,
    ((C8_base_names { ModuleResourcePrivate.new with fileName := "README".toList }
      (by decide)).2.2 (by decide)).2⟩

/-- The suffix accessors on a name split at a `.`: the part after the dot, without
any out-of-range access. -/
theorem suffix_after (n pre post : string) (hn : n.length ≤ npos)
    (hsplit : n = pre ++ '.' :: post) :
    (if pre.length < size_sub n.length 1 then substr n (size_add pre.length 1) npos
      else Except.ok []) = Except.ok post := by
  have hl : n.length = pre.length + post.length + 1 := by
    rw [hsplit]
    simp
    omega
  have hsub : size_sub n.length 1 = pre.length + post.length := by
    rw [size_sub_one_pos (by omega) hn, hl]
    rfl
  have hadd : size_add pre.length 1 = pre.length + 1 := size_add_one (by omega)
  rw [hsub, hadd]
  by_cases hp : post = []
  · subst hp
    simp
  · have hpos : 0 < post.length := List.length_pos.mpr hp
    rw [if_pos (by omega), hsplit]
    have := substr_from (pre ++ ['.']) post (by omega)
    simpa using this

/-- The suffix accessors on a name without `.` (the empty name included): `npos` is
not below `size() - 1`, whatever the size. -/
theorem suffix_absent (n : string) (hn : n.length ≤ npos) :
    (if npos < size_sub n.length 1 then substr n (size_add npos 1) npos
      else Except.ok []) = Except.ok [] := by
  have h : ¬ npos < size_sub n.length 1 := by
    by_cases h0 : n.length = 0
    · rw [h0, size_sub_one_zero]
      exact Nat.lt_irrefl _
    · rw [size_sub_one_pos (by omega) hn]
      omega
  rw [if_neg h]

/-- C9 (suffixes): for every file name `n` (at most `npos` characters),
`GetSuffix()` is the part of `n` after its last `.` and `GetCompleteSuffix()` the part
after its first `.`, the dot excluded; both are empty when `n` has no `.`, when that
`.` is the last character, and when `n` is empty. Neither call throws. -/
theorem C9_suffixes (d : ModuleResourcePrivate) (hn : d.fileName.length ≤ npos) :
    (∀ pre post, d.fileName = pre ++ '.' :: post → '.' ∉ post →
      ModuleResource.GetSuffix d = Except.ok post) ∧
    (∀ pre post, d.fileName = pre ++ '.' :: post → '.' ∉ pre →
      ModuleResource.GetCompleteSuffix d = Except.ok post) ∧
    ('.' ∉ d.fileName →
      ModuleResource.GetSuffix d = Except.ok [] ∧
      ModuleResource.GetCompleteSuffix d = Except.ok []) ∧
    (d.fileName = [] →
      ModuleResource.GetSuffix d = Except.ok [] ∧
      ModuleResource.GetCompleteSuffix d = Except.ok []) := by
  have hno : '.' ∉ d.fileName →
      ModuleResource.GetSuffix d = Except.ok [] ∧
      ModuleResource.GetCompleteSuffix d = Except.ok [] := by
    intro hno
    unfold ModuleResource.GetSuffix ModuleResource.GetCompleteSuffix
    simp only []
    rw [find_first_of_absent _ _ hno, find_last_of_absent _ _ hno]
    exact ⟨suffix_absent _ hn, suffix_absent _ hn⟩
  refine ⟨?_, ?_, hno, ?_⟩
  · intro pre post hsplit hpost
    unfold ModuleResource.GetSuffix
    simp only []
    have hidx : find_last_of d.fileName '.' = pre.length := by
      rw [hsplit]
      exact find_last_of_split _ _ _ hpost
    rw [hidx]
    exact suffix_after d.fileName pre post hn hsplit
  · intro pre post hsplit hpre
    unfold ModuleResource.GetCompleteSuffix
    simp only []
    have hidx : find_first_of d.fileName '.' = pre.length := by
      rw [hsplit]
      exact find_first_of_split _ _ _ hpre
    rw [hidx]
    exact suffix_after d.fileName pre post hn hsplit
  · intro h0
    exact hno (by rw [h0]; simp)

/-- Witness of C9 at the names `archive.tar.gz`, `README`, `a.` and the empty name. -/
theorem C9_suffixes_witness :
    "archive.tar.gz".toList.length ≤ npos ∧ "README".toList.length ≤ npos ∧
    ModuleResource.GetSuffix { ModuleResourcePrivate.new with
      fileName := "archive.tar.gz".toList } = Except.ok "gz".toList ∧
    ModuleResource.GetCompleteSuffix { ModuleResourcePrivate.new with
      fileName := "archive.tar.gz".toList } = Except.ok "tar.gz".toList ∧
    ModuleResource.GetSuffix { ModuleResourcePrivate.new with
      fileName := "README".toList } = Except.ok [] ∧
    ModuleResource.GetCompleteSuffix { ModuleResourcePrivate.new with
      fileName := "README".toList } = Except.ok [] ∧
    ModuleResource.GetSuffix { ModuleResourcePrivate.new with
      fileName := "a.".toList } = Except.ok [] ∧
    ModuleResource.GetCompleteSuffix { ModuleResourcePrivate.new with
      fileName := [] } = Except.ok [] :=
  ⟨by decide, by decide,
    (C9_suffixes { ModuleResourcePrivate.new with fileName := "archive.tar.gz".toList }
      (by decide)).1 "archive.tar".toList "gz".toList rfl (by decide),
    (C9_suffixes { ModuleResourcePrivate.new with fileName := "archive.tar.gz".toList }
      (by decide)).2.1 "archive".toList "tar.gz".toList rfl (by decide),
    ((C9_suffixes { ModuleResourcePrivate.new with fileName := "README".toList }
      (by decide)).2.2.1 (by decide)).1,
    ((C9_suffixes { ModuleResourcePrivate.new with fileName := "README".toList }
      (by decide)).2.2.1 (by decide)).2,
    (C9_suffixes { ModuleResourcePrivate.new with fileName := "a.".toList }
      (by decide)).1 "a".toList [] rfl (by decide),
    ((C9_suffixes { ModuleResourcePrivate.new with fileName := [] }
      (by decide)).2.2.2 rfl).2⟩

/-- When `FindNode` returns the sentinel, the lookup only stores it. -/
theorem lookup_not_found (store : TreeStore) (d : ModuleResourcePrivate) (t : Nat)
    (ht : d.resourceTree = some t) (h : (store t).FindNode d.filePath = -1) :
    lookup store d = Except.ok ({ d with node := -1 }, [(t, Query.FindNode d.filePath)]) := by
  unfold lookup
  rw [ht]
  simp [h]

/-- Construction is the lookup run on the normalised record. -/
theorem create_eq_lookup (store : TreeStore) (s : string) (t : Nat)
    (hlen : (forceLeading s).length ≤ npos) :
    ∃ pre post, forceLeading s = pre ++ '/' :: post ∧ '/' ∉ post ∧
      ModuleResource.create store s (some t) = lookup store (normalized (some t) pre post) := by
  obtain ⟨rest, hrest⟩ := forceLeading_head s
  obtain ⟨pre, post, hsplit, hpost⟩ :=
    exists_last_split '/' (forceLeading s) (by rw [hrest]; simp)
  have hn : normalize (freshRecord (some t)) s = Except.ok (normalized (some t) pre post) :=
    normalize_split (freshRecord (some t)) s pre post hsplit hpost hlen rfl rfl
  refine ⟨pre, post, hsplit, hpost, ?_⟩
  rw [create_unfold, hn]
  rfl

/-- C10 (failed lookup is silent): for every input string and every tree,
construction raises no error and issues the `FindNode` query; when that query returns
the sentinel `-1` for the normalised path, no other query is issued by the constructor,
and the handle has `IsValid() == false`, `IsFile() == false`, `GetSize() == 0`,
`GetData() == NULL` and an empty `GetChildren()`, these accessors asking the tree for
nothing but `IsValid`. -/
theorem C10_failed_lookup_silent (store : TreeStore) (s : string) (t : Nat)
    (hs : s.length < npos) :
    ∃ d tr, ModuleResource.create store s (some t) = Except.ok (d, tr) ∧
      ((store t).FindNode (ModuleResource.GetResourcePath d) = -1 →
        tr = [(t, Query.FindNode (ModuleResource.GetResourcePath d))] ∧
        ModuleResource.IsValid store d = (false, [(t, Query.IsValid)]) ∧
        ModuleResource.IsFile d = false ∧
        ModuleResource.GetSize d = 0 ∧
        ModuleResource.GetData store d = (none, [(t, Query.IsValid)]) ∧
        ModuleResource.GetChildren store d = Except.ok ([], d, [(t, Query.IsValid)])) := by
  obtain ⟨pre, post, _, _, hc⟩ :=
    create_eq_lookup store s t (forceLeading_length_le_npos s hs)
  obtain ⟨d, tr, hlk, _, _, hfp, _, _, _⟩ :=
    lookup_ok store (normalized (some t) pre post) t rfl
  refine ⟨d, tr, hc.trans hlk, ?_⟩
  intro hfind
  unfold ModuleResource.GetResourcePath at hfind
  rw [hfp] at hfind
  have hnf := lookup_not_found store (normalized (some t) pre post) t rfl hfind
  rw [hlk] at hnf
  have hd := (Prod.mk.inj (Except.ok.inj hnf)).1
  have htr := (Prod.mk.inj (Except.ok.inj hnf)).2
  have hvalid : ModuleResource.IsValid store d = (false, [(t, Query.IsValid)]) := by
    rw [hd]
    unfold ModuleResource.IsValid
    by_cases hv : (store t).IsValid = true
    · simp [normalized, freshRecord, hv]
    · simp [normalized, freshRecord, hv]
  refine ⟨?_, hvalid, ?_, ?_, ?_, ?_⟩
  · rw [htr]
    unfold ModuleResource.GetResourcePath
    rw [hfp]
  · rw [hd]
    rfl
  · rw [hd]
    rfl
  · unfold ModuleResource.GetData
    rw [hvalid]
    rfl
  · have hfile : d.isFile = false := by
      rw [hd]
      rfl
    have hch : d.children = [] := by
      rw [hd]
      rfl
    unfold ModuleResource.GetChildren
    rw [hvalid, hfile, hch]
    rfl

/-- Witness of C10 at the input `no/such/file` against a tree that knows no path. -/
theorem C10_failed_lookup_silent_witness :
    "no/such/file".toList.length < npos ∧
    ∃ d tr, ModuleResource.create (fun _ => emptyTree) "no/such/file".toList (some 0)
        = Except.ok (d, tr) ∧
      tr = [(0, Query.FindNode (ModuleResource.GetResourcePath d))] ∧
      ModuleResource.IsValid (fun _ => emptyTree) d = (false, [(0, Query.IsValid)]) ∧
      ModuleResource.IsFile d = false ∧
      ModuleResource.GetSize d = 0 ∧
      ModuleResource.GetData (fun _ => emptyTree) d = (none, [(0, Query.IsValid)]) ∧
      ModuleResource.GetChildren (fun _ => emptyTree) d
        = Except.ok ([], d, [(0, Query.IsValid)]) :=
  ⟨by decide,
    match C10_failed_lookup_silent (fun _ => emptyTree) "no/such/file".toList 0 (by decide) with
    | ⟨d, tr, hc, h⟩ => ⟨d, tr, hc, h rfl⟩⟩

/-- C11 (default-constructed handle), evaluated: every accessor gives the empty,
zero, null or false answer, except `IsDir()`, which answers `true`. -/
theorem C11_default_handle (store : TreeStore) :
    (ModuleResource.IsValid store ModuleResource.default).1 = false ∧
    ModuleResource.IsFile ModuleResource.default = false ∧
    ModuleResource.IsDir ModuleResource.default = true ∧
    ModuleResource.IsCompressed ModuleResource.default = false ∧
    ModuleResource.GetName ModuleResource.default = [] ∧
    ModuleResource.GetPath ModuleResource.default = [] ∧
    ModuleResource.GetResourcePath ModuleResource.default = [] ∧
    ModuleResource.GetBaseName ModuleResource.default = Except.ok [] ∧
    ModuleResource.GetCompleteBaseName ModuleResource.default = Except.ok [] ∧
    ModuleResource.GetSuffix ModuleResource.default = Except.ok [] ∧
    ModuleResource.GetCompleteSuffix ModuleResource.default = Except.ok [] ∧
    ModuleResource.GetSize ModuleResource.default = 0 ∧
    ModuleResource.GetData store ModuleResource.default = (none, []) ∧
    ModuleResource.GetChildren store ModuleResource.default
      = Except.ok ([], ModuleResource.default, []) := by
  exact ⟨rfl, rfl, rfl, rfl, rfl, rfl, rfl, rfl, rfl, rfl, rfl, rfl, rfl, rfl⟩

/-- C12 (invalid handles), evaluated at two handles with `IsValid() == false`: one
over a tree that reports itself unusable while `FindNode` resolves a file node, one
over a tree whose `FindNode` answers `-2`. In both, `GetData()` is null and
`GetChildren()` is empty, but `IsFile()` and `IsCompressed()` are `true` and
`GetSize()` is 5. -/
theorem C12_invalid_handle_keeps_cache :
    (match ModuleResource.create (fun _ => invalidFileTree) ['/', 'f'] (some 0) with
      | Except.ok (d, _) =>
        some ((ModuleResource.IsValid (fun _ => invalidFileTree) d).1,
          ModuleResource.IsFile d, ModuleResource.IsCompressed d, ModuleResource.GetSize d,
          (ModuleResource.GetData (fun _ => invalidFileTree) d).1,
          (match ModuleResource.GetChildren (fun _ => invalidFileTree) d with
            | Except.ok (c, _, _) => some c
            | Except.error _ => none))
      | Except.error _ => none) = some (false, true, true, 5, none, some []) ∧
    (match ModuleResource.create (fun _ => negativeNodeTree) ['/', 'f'] (some 0) with
      | Except.ok (d, _) =>
        some ((ModuleResource.IsValid (fun _ => negativeNodeTree) d).1,
          ModuleResource.IsFile d, ModuleResource.IsCompressed d, ModuleResource.GetSize d,
          (ModuleResource.GetData (fun _ => negativeNodeTree) d).1,
          (match ModuleResource.GetChildren (fun _ => negativeNodeTree) d with
            | Except.ok (c, _, _) => some c
            | Except.error _ => none))
      | Except.error _ => none) = some (false, true, true, 5, none, some []) :=
  ⟨rfl, rfl⟩

/-- The three ways the lookup can go, each with the record and the trace it leaves. -/
theorem lookup_cases (store : TreeStore) (d : ModuleResourcePrivate) (t : Nat)
    (ht : d.resourceTree = some t) :
    ((store t).FindNode d.filePath = -1 ∧
      lookup store d = Except.ok ({ d with node := -1 }, [(t, Query.FindNode d.filePath)])) ∨
    ((store t).FindNode d.filePath ≠ -1 ∧
      (store t).IsDir ((store t).FindNode d.filePath) = true ∧
      lookup store d = Except.ok
        ({ d with node := (store t).FindNode d.filePath, isFile := false },
          [(t, Query.FindNode d.filePath),
            (t, Query.IsDir ((store t).FindNode d.filePath))])) ∨
    ((store t).FindNode d.filePath ≠ -1 ∧
      (store t).IsDir ((store t).FindNode d.filePath) = false ∧
      lookup store d = Except.ok
        ({ d with
            node := (store t).FindNode d.filePath
            isFile := true
            data := ((store t).GetData ((store t).FindNode d.filePath)).1
            size := ((store t).GetData ((store t).FindNode d.filePath)).2
            isCompressed := (store t).IsCompressed ((store t).FindNode d.filePath) },
          [(t, Query.FindNode d.filePath),
            (t, Query.IsDir ((store t).FindNode d.filePath)),
            (t, Query.GetData ((store t).FindNode d.filePath)),
            (t, Query.IsCompressed ((store t).FindNode d.filePath))])) := by
  by_cases h1 : (store t).FindNode d.filePath = -1
  · exact Or.inl ⟨h1, lookup_not_found store d t ht h1⟩
  · by_cases h2 : (store t).IsDir ((store t).FindNode d.filePath) = true
    · refine Or.inr (Or.inl ⟨h1, h2, ?_⟩)
      unfold lookup
      rw [ht]
      simp [h1, h2]
    · have h3 : (store t).IsDir ((store t).FindNode d.filePath) = false := by
        simpa using h2
      refine Or.inr (Or.inr ⟨h1, h3, ?_⟩)
      unfold lookup
      rw [ht]
      simp [h1, h3]

/-- C13 (file metadata is cached from the tree): for every input string and every
tree, construction succeeds; when the tree is valid and `FindNode` resolves the
normalised path to a node `n` (`n > -1`, the test of `IsValid()`) with
`IsDir(n) == false`, the handle is valid, is a file and not a directory, `GetData()`
and `GetSize()` are the pointer and the size of `tree.GetData(n)`, and
`IsCompressed()` is `tree.IsCompressed(n)`. No handle is both a file and a directory. -/
theorem C13_file_metadata_cached (store : TreeStore) (s : string) (t : Nat)
    (hs : s.length < npos) :
    (∀ r : ModuleResourcePrivate,
      ¬ (ModuleResource.IsFile r = true ∧ ModuleResource.IsDir r = true)) ∧
    ∃ d tr, ModuleResource.create store s (some t) = Except.ok (d, tr) ∧
      ((store t).IsValid = true →
        -1 < (store t).FindNode (ModuleResource.GetResourcePath d) →
        (store t).IsDir ((store t).FindNode (ModuleResource.GetResourcePath d)) = false →
        (ModuleResource.IsValid store d).1 = true ∧
        ModuleResource.IsFile d = true ∧
        ModuleResource.IsDir d = false ∧
        (ModuleResource.GetData store d).1 =
          ((store t).GetData ((store t).FindNode (ModuleResource.GetResourcePath d))).1 ∧
        ModuleResource.GetSize d =
          ((store t).GetData ((store t).FindNode (ModuleResource.GetResourcePath d))).2 ∧
        ModuleResource.IsCompressed d =
          (store t).IsCompressed ((store t).FindNode (ModuleResource.GetResourcePath d))) := by
  constructor
  · intro r h
    have h1 := h.1
    have h2 := h.2
    unfold ModuleResource.IsFile at h1
    unfold ModuleResource.IsDir at h2
    rw [h1] at h2
    exact absurd h2 (by decide)
  obtain ⟨pre, post, _, _, hc⟩ :=
    create_eq_lookup store s t (forceLeading_length_le_npos s hs)
  obtain ⟨d, tr, hlk, _, _, hfp, _, _, _⟩ :=
    lookup_ok store (normalized (some t) pre post) t rfl
  refine ⟨d, tr, hc.trans hlk, ?_⟩
  unfold ModuleResource.GetResourcePath
  rw [hfp]
  intro hvalid hnode hdir
  rcases lookup_cases store (normalized (some t) pre post) t rfl with h | h | h
  · rw [h.1] at hnode
    exact absurd hnode (by decide)
  · rw [h.2.1] at hdir
    exact absurd hdir (by decide)
  · have hd := (Prod.mk.inj (Except.ok.inj (hlk.symm.trans h.2.2))).1
    have hrt : (normalized (some t) pre post).resourceTree = some t := rfl
    have hn2 : ¬ (store t).FindNode (normalized (some t) pre post).filePath ≤ -1 :=
      not_le.mpr hnode
    rw [hd]
    simp [ModuleResource.IsValid, ModuleResource.IsFile, ModuleResource.IsDir,
      ModuleResource.GetData, ModuleResource.GetSize, ModuleResource.IsCompressed,
      hrt, hvalid, hnode, hn2]

/-- Witness of C13 at the input `/f` against a valid tree that holds one file. -/
theorem C13_file_metadata_cached_witness :
    ['/', 'f'].length < npos ∧
    ∃ d tr, ModuleResource.create (fun _ => oneFileTree) ['/', 'f'] (some 0)
        = Except.ok (d, tr) ∧
      (ModuleResource.IsValid (fun _ => oneFileTree) d).1 = true ∧
      ModuleResource.IsFile d = true ∧
      ModuleResource.IsDir d = false ∧
      (ModuleResource.GetData (fun _ => oneFileTree) d).1 = some 4096 ∧
      ModuleResource.GetSize d = 5 ∧
      ModuleResource.IsCompressed d = true :=
  ⟨by decide,
    match (C13_file_metadata_cached (fun _ => oneFileTree) ['/', 'f'] 0 (by decide)).2 with
    | ⟨d, tr, hc, h⟩ => ⟨d, tr, hc, h rfl (show (-1 : Int) < 0 by decide) rfl⟩⟩

/-- C14 (directory check precedes data fetch): for every input string and every
tree, the queries of the constructor are `FindNode` alone, or `FindNode` and `IsDir(n)`
answered `true`, or `FindNode`, `IsDir(n)` answered `false`, `GetData(n)` and
`IsCompressed(n)` for the same `n`; for a directory node neither `GetData` nor
`IsCompressed` is asked, and `GetSize()` is 0, `GetData()` is null and `IsCompressed()`
is `false`. -/
theorem C14_directory_check_first (store : TreeStore) (s : string) (t : Nat)
    (hs : s.length < npos) :
    ∃ d tr, ModuleResource.create store s (some t) = Except.ok (d, tr) ∧
      (tr = [(t, Query.FindNode (ModuleResource.GetResourcePath d))] ∨
        (tr = [(t, Query.FindNode (ModuleResource.GetResourcePath d)),
            (t, Query.IsDir d.node)] ∧
          (store t).IsDir d.node = true) ∨
        (tr = [(t, Query.FindNode (ModuleResource.GetResourcePath d)),
            (t, Query.IsDir d.node), (t, Query.GetData d.node),
            (t, Query.IsCompressed d.node)] ∧
          (store t).IsDir d.node = false)) ∧
      ((store t).IsDir d.node = true →
        (∀ q ∈ tr, ∀ n, q.2 ≠ Query.GetData n ∧ q.2 ≠ Query.IsCompressed n) ∧
        ModuleResource.GetSize d = 0 ∧
        (ModuleResource.GetData store d).1 = none ∧
        (∀ q ∈ (ModuleResource.GetData store d).2, q.2 = Query.IsValid) ∧
        ModuleResource.IsCompressed d = false) := by
  obtain ⟨pre, post, _, _, hc⟩ :=
    create_eq_lookup store s t (forceLeading_length_le_npos s hs)
  have hdata : ∀ r : ModuleResourcePrivate, r.resourceTree = some t → r.data = none →
      (ModuleResource.GetData store r).1 = none ∧
      ∀ q ∈ (ModuleResource.GetData store r).2, q.2 = Query.IsValid := by
    intro r hr hdn
    unfold ModuleResource.GetData ModuleResource.IsValid
    rw [hr, hdn]
    by_cases hv : (store t).IsValid = true
    · by_cases hn : r.node > -1
      · simp [hv, hn]
      · simp [hv, hn]
    · simp [hv]
  rcases lookup_cases store (normalized (some t) pre post) t rfl with h | h | h
  · refine ⟨_, _, hc.trans h.2, Or.inl rfl, ?_⟩
    intro _
    refine ⟨?_, rfl, (hdata _ rfl rfl).1, (hdata _ rfl rfl).2, rfl⟩
    intro q hq n
    simp at hq
    rw [hq]
    simp
  · refine ⟨_, _, hc.trans h.2.2, Or.inr (Or.inl ⟨rfl, h.2.1⟩), ?_⟩
    intro _
    refine ⟨?_, rfl, (hdata _ rfl rfl).1, (hdata _ rfl rfl).2, rfl⟩
    intro q hq n
    simp at hq
    rcases hq with hq | hq <;> rw [hq] <;> simp
  · refine ⟨_, _, hc.trans h.2.2, Or.inr (Or.inr ⟨rfl, h.2.1⟩), ?_⟩
    intro hdir
    have hdir2 : (store t).IsDir ((store t).FindNode
        (normalized (some t) pre post).filePath) = true := hdir
    rw [h.2.1] at hdir2
    exact absurd hdir2 (by decide)

/-- Witness of C14 at the input `/dir/` against a tree where every path is a
directory. -/
theorem C14_directory_check_first_witness :
    ['/', 'd', '/'].length < npos ∧
    ∃ d tr, ModuleResource.create (fun _ => emptyDirTree) ['/', 'd', '/'] (some 0)
        = Except.ok (d, tr) ∧
      (∀ q ∈ tr, ∀ n, q.2 ≠ Query.GetData n ∧ q.2 ≠ Query.IsCompressed n) ∧
      ModuleResource.GetSize d = 0 ∧
      (ModuleResource.GetData (fun _ => emptyDirTree) d).1 = none ∧
      (∀ q ∈ (ModuleResource.GetData (fun _ => emptyDirTree) d).2, q.2 = Query.IsValid) ∧
      ModuleResource.IsCompressed d = false :=
  ⟨by decide,
    match C14_directory_check_first (fun _ => emptyDirTree) ['/', 'd', '/'] 0 (by decide) with
    | ⟨d, tr, hc, _, h⟩ => ⟨d, tr, hc, h rfl⟩⟩

/-- C15 (children caching), evaluated at a valid directory without children (the
path `/` in a tree whose root is empty): both calls of `GetChildren()` return the empty
vector, and the second call asks the tree `GetChildren` again. -/
theorem C15_empty_directory_asked_again :
    (match ModuleResource.create (fun _ => emptyDirTree) ['/'] (some 0) with
      | Except.ok (d, _) =>
        match ModuleResource.GetChildren (fun _ => emptyDirTree) d with
        | Except.ok (c1, d1, tr1) =>
          match ModuleResource.GetChildren (fun _ => emptyDirTree) d1 with
          | Except.ok (c2, _, tr2) =>
            some ((ModuleResource.IsValid (fun _ => emptyDirTree) d).1,
              ModuleResource.IsDir d, c1, c2, tr1, tr2)
          | Except.error _ => none
        | Except.error _ => none
      | Except.error _ => none) =
    some (true, true, [], [],
      [(0, Query.IsValid), (0, Query.GetChildren 0)],
      [(0, Query.IsValid), (0, Query.GetChildren 0)]) :=
  rfl

/-- What `GetChildren()` does on a record whose cache is still empty. -/
theorem getChildren_first_call (store : TreeStore) (d : ModuleResourcePrivate) (t : Nat)
    (hrt : d.resourceTree = some t) (hch : d.children = []) :
    (ModuleResource.IsFile d = true →
      ModuleResource.GetChildren store d = Except.ok ([], d, [])) ∧
    ((ModuleResource.IsValid store d).1 = false →
      ∃ tr, ModuleResource.GetChildren store d = Except.ok ([], d, tr) ∧
        ∀ q ∈ tr, q.2 = Query.IsValid) ∧
    (ModuleResource.IsFile d = false → (ModuleResource.IsValid store d).1 = true →
      ModuleResource.GetChildren store d = Except.ok
        ((store t).GetChildren d.node [],
          { d with children := (store t).GetChildren d.node [] },
          [(t, Query.IsValid), (t, Query.GetChildren d.node)])) := by
  have htrace : (ModuleResource.IsValid store d).2 = [(t, Query.IsValid)] := by
    unfold ModuleResource.IsValid
    rw [hrt]
    by_cases hv : (store t).IsValid = true
    · simp [hv]
    · simp [hv]
  refine ⟨?_, ?_, ?_⟩
  · intro hf
    unfold ModuleResource.IsFile at hf
    unfold ModuleResource.GetChildren
    rw [hf, hch]
    rfl
  · intro hv
    cases hf : d.isFile with
    | true =>
      refine ⟨[], ?_, by simp⟩
      unfold ModuleResource.GetChildren
      rw [hf, hch]
      rfl
    | false =>
      refine ⟨[(t, Query.IsValid)], ?_, by simp⟩
      unfold ModuleResource.GetChildren
      simp [hf, hv, hch, htrace]
  · intro hf hv
    unfold ModuleResource.IsFile at hf
    unfold ModuleResource.GetChildren
    simp [hf, hv, hch, htrace, hrt]

/-- On a valid directory whose cache is filled, `GetChildren()` returns the cache and
asks only `IsValid`. -/
theorem getChildren_cached (store : TreeStore) (r : ModuleResourcePrivate) (t : Nat)
    (hrt : r.resourceTree = some t) (hf : r.isFile = false)
    (hv : (ModuleResource.IsValid store r).1 = true) (hne : r.children ≠ []) :
    ModuleResource.GetChildren store r = Except.ok (r.children, r, [(t, Query.IsValid)]) := by
  have htrace : (ModuleResource.IsValid store r).2 = [(t, Query.IsValid)] := by
    unfold ModuleResource.IsValid
    rw [hrt]
    by_cases hv : (store t).IsValid = true
    · simp [hv]
    · simp [hv]
  unfold ModuleResource.GetChildren
  simp [hf, hv, hne, htrace]

/-- A valid directory whose first `GetChildren()` found at least one child answers the
second call from the cache: same content, and only `IsValid` is asked. -/
theorem getChildren_second_call (store : TreeStore) (d : ModuleResourcePrivate) (t : Nat)
    (hrt : d.resourceTree = some t) (hch : d.children = [])
    (hf : ModuleResource.IsFile d = false) (hv : (ModuleResource.IsValid store d).1 = true)
    (hne : (store t).GetChildren d.node [] ≠ []) :
    ∃ c d1 tr1, ModuleResource.GetChildren store d = Except.ok (c, d1, tr1) ∧
      ModuleResource.GetChildren store d1 = Except.ok (c, d1, [(t, Query.IsValid)]) :=
  ⟨_, _, _, (getChildren_first_call store d t hrt hch).2.2 hf hv,
    getChildren_cached store { d with children := (store t).GetChildren d.node [] } t
      hrt hf hv hne⟩

theorem string_lt_cons (a b : Char) (as bs : string) :
    string_lt (a :: as) (b :: bs) = true ↔ a < b ∨ (a = b ∧ string_lt as bs = true) := by
  show (if a < b then true else if b < a then false else string_lt as bs) = true ↔ _
  by_cases h1 : a < b
  · simp [h1]
  · by_cases h2 : b < a
    · have hne : a ≠ b := fun e => h1 (e ▸ h2)
      simp [h1, h2, hne]
    · have he : a = b := le_antisymm (not_lt.mp h2) (not_lt.mp h1)
      simp [h1, h2, he]

/-- The comparison of the model is the lexicographic order of lists. -/
theorem string_lt_iff_lex :
    ∀ x y : string, string_lt x y = true ↔ List.Lex (fun a b : Char => a < b) x y
  | [], [] => by
    constructor
    · intro h
      simp [string_lt] at h
    · intro h
      cases h
  | [], b :: bs => by
    constructor
    · intro _
      exact List.Lex.nil
    · intro _
      rfl
  | a :: as, [] => by
    constructor
    · intro h
      simp [string_lt] at h
    · intro h
      cases h
  | a :: as, b :: bs => by
    rw [string_lt_cons]
    constructor
    · rintro (h | ⟨he, h⟩)
      · exact List.Lex.rel h
      · subst he
        exact List.Lex.cons ((string_lt_iff_lex as bs).1 h)
    · intro h
      cases h with
      | rel h => exact Or.inl h
      | cons h => exact Or.inr ⟨rfl, (string_lt_iff_lex as bs).2 h⟩

theorem string_lt_irrefl : ∀ x : string, string_lt x x = false
  | [] => rfl
  | a :: as => by
    have ih := string_lt_irrefl as
    cases h : string_lt (a :: as) (a :: as) with
    | false => rfl
    | true =>
      rcases (string_lt_cons a a as as).1 h with h1 | ⟨_, h1⟩
      · exact absurd h1 (lt_irrefl a)
      · rw [ih] at h1
        exact absurd h1 (by decide)

theorem string_lt_trans :
    ∀ x y z : string, string_lt x y = true → string_lt y z = true → string_lt x z = true
  | [], [], _, h, _ => by simp [string_lt] at h
  | [], _ :: _, [], _, h => by simp [string_lt] at h
  | [], _ :: _, _ :: _, _, _ => rfl
  | _ :: _, [], _, h, _ => by simp [string_lt] at h
  | _ :: _, _ :: _, [], _, h => by simp [string_lt] at h
  | a :: as, b :: bs, c :: cs, h1, h2 => by
    rw [string_lt_cons] at h1 h2 ⊢
    rcases h1 with h1 | ⟨e1, h1⟩
    · rcases h2 with h2 | ⟨e2, _⟩
      · exact Or.inl (lt_trans h1 h2)
      · exact Or.inl (e2 ▸ h1)
    · rcases h2 with h2 | ⟨e2, h2⟩
      · exact Or.inl (e1 ▸ h2)
      · exact Or.inr ⟨e1.trans e2, string_lt_trans as bs cs h1 h2⟩

theorem string_lt_total :
    ∀ x y : string, string_lt x y = false → string_lt y x = false → x = y
  | [], [], _, _ => rfl
  | [], _ :: _, h, _ => by simp [string_lt] at h
  | _ :: _, [], _, h => by simp [string_lt] at h
  | a :: as, b :: bs, h1, h2 => by
    have n1 : ¬ (a < b ∨ (a = b ∧ string_lt as bs = true)) := by
      rw [← string_lt_cons, h1]
      decide
    have n2 : ¬ (b < a ∨ (b = a ∧ string_lt bs as = true)) := by
      rw [← string_lt_cons, h2]
      decide
    have e : a = b :=
      le_antisymm (not_lt.mp (fun h => n2 (Or.inl h))) (not_lt.mp (fun h => n1 (Or.inl h)))
    have t1 : string_lt as bs = false := by
      cases h : string_lt as bs with
      | false => rfl
      | true => exact absurd (Or.inr ⟨e, h⟩) n1
    have t2 : string_lt bs as = false := by
      cases h : string_lt bs as with
      | false => rfl
      | true => exact absurd (Or.inr ⟨e.symm, h⟩) n2
    rw [e, string_lt_total as bs t1 t2]

/-- C19 as stated fails: two handles built from `/a` against the trees at addresses 0
and 1 are unequal, and neither is smaller than the other. -/
theorem C19_order_ignores_tree :
    (match ModuleResource.create (fun _ => emptyTree) ['/', 'a'] (some 0),
        ModuleResource.create (fun _ => emptyTree) ['/', 'a'] (some 1) with
      | Except.ok (a, _), Except.ok (b, _) =>
        some (ModuleResource.eq a b, ModuleResource.lt a b, ModuleResource.lt b a)
      | _, _ => none) = some (false, false, false) :=
  rfl

/-- C19, amended: `operator<` is the lexicographic order of the resource paths; it
is irreflexive and transitive; `a == b` implies that neither `a < b` nor `b < a`; and
for two handles that hold the same tree pointer, `a == b` holds iff neither `a < b` nor
`b < a`. -/
theorem C19_ordering (a b c : ModuleResourcePrivate) :
    (ModuleResource.lt a b = true ↔
      List.Lex (fun x y : Char => x < y) (ModuleResource.GetResourcePath a)
        (ModuleResource.GetResourcePath b)) ∧
    ModuleResource.lt a a = false ∧
    (ModuleResource.lt a b = true → ModuleResource.lt b c = true →
      ModuleResource.lt a c = true) ∧
    (ModuleResource.eq a b = true →
      ModuleResource.lt a b = false ∧ ModuleResource.lt b a = false) ∧
    (a.resourceTree = b.resourceTree →
      (ModuleResource.eq a b = true ↔
        (ModuleResource.lt a b = false ∧ ModuleResource.lt b a = false))) := by
  have heq : ModuleResource.eq a b = true →
      ModuleResource.lt a b = false ∧ ModuleResource.lt b a = false := by
    intro h
    have hp : a.filePath = b.filePath := by
      simp [ModuleResource.eq] at h
      exact h.2
    unfold ModuleResource.lt ModuleResource.GetResourcePath
    rw [hp]
    exact ⟨string_lt_irrefl _, string_lt_irrefl _⟩
  refine ⟨string_lt_iff_lex _ _, string_lt_irrefl _, string_lt_trans _ _ _, heq, ?_⟩
  intro ht
  refine ⟨heq, ?_⟩
  rintro ⟨h1, h2⟩
  have hp : a.filePath = b.filePath := string_lt_total _ _ h1 h2
  simp [ModuleResource.eq, ht, hp]

/-- Witness of C19 (amended) at handles with the paths `/a`, `/b` and `/c` and no
tree: `/a` is below `/c` by transitivity, and `/a` equals itself because neither copy is
below the other. -/
theorem C19_ordering_witness :
    ModuleResource.lt { ModuleResourcePrivate.new with filePath := ['/', 'a'] }
      { ModuleResourcePrivate.new with filePath := ['/', 'c'] } = true ∧
    ModuleResource.eq { ModuleResourcePrivate.new with filePath := ['/', 'a'] }
      { ModuleResourcePrivate.new with filePath := ['/', 'a'] } = true :=
  ⟨(C19_ordering { ModuleResourcePrivate.new with filePath := ['/', 'a'] }
      { ModuleResourcePrivate.new with filePath := ['/', 'b'] }
      { ModuleResourcePrivate.new with filePath := ['/', 'c'] }).2.2.1 rfl rfl,
    ((C19_ordering { ModuleResourcePrivate.new with filePath := ['/', 'a'] }
      { ModuleResourcePrivate.new with filePath := ['/', 'a'] }
      { ModuleResourcePrivate.new with filePath := ['/', 'c'] }).2.2.2.2 rfl).2 ⟨rfl, rfl⟩⟩

/-- The part before the first `c` is the beginning of the part before the last `c`. -/
theorem first_split_initial (c : Char) :
    ∀ (pre1 pre2 post1 post2 : string), pre1 ++ c :: post1 = pre2 ++ c :: post2 →
      c ∉ pre1 → pre1 <+: pre2
  | [], pre2, _, _, _, _ => List.nil_prefix
  | x :: p, [], post1, post2, e, h => by
    simp at e
    exact absurd (by rw [e.1]; simp) h
  | x :: p, y :: q, post1, post2, e, h => by
    simp at e
    have ih := first_split_initial c p q post1 post2 e.2
      (fun hm => h (List.mem_cons_of_mem _ hm))
    rw [e.1]
    exact (List.prefix_cons_inj y).2 ih

/-- C20 (name reconstruction): for every file name `n` (at most `npos` characters)
the four accessors return; when `n` contains a `.`, `GetCompleteBaseName() + "." +
GetSuffix()` and `GetBaseName() + "." + GetCompleteSuffix()` are both `n`; `GetBaseName()`
and `GetSuffix()` contain no `.`, and `GetBaseName()` is a beginning of
`GetCompleteBaseName()`. -/
theorem C20_name_reconstruction (d : ModuleResourcePrivate)
    (hn : d.fileName.length ≤ npos) :
    ∃ b cb sfx csfx, ModuleResource.GetBaseName d = Except.ok b ∧
      ModuleResource.GetCompleteBaseName d = Except.ok cb ∧
      ModuleResource.GetSuffix d = Except.ok sfx ∧
      ModuleResource.GetCompleteSuffix d = Except.ok csfx ∧
      ('.' ∈ d.fileName →
        cb ++ ['.'] ++ sfx = d.fileName ∧ b ++ ['.'] ++ csfx = d.fileName) ∧
      '.' ∉ b ∧ '.' ∉ sfx ∧ b <+: cb := by
  by_cases hdot : '.' ∈ d.fileName
  · obtain ⟨pre1, post1, h1, hpre1⟩ := List.eq_append_cons_of_mem hdot
    obtain ⟨pre2, post2, h2, hpost2⟩ := exists_last_split '.' d.fileName hdot
    have hfirst : find_first_of d.fileName '.' = pre1.length := by
      rw [h1]
      exact find_first_of_split _ _ _ hpre1
    have hlast : find_last_of d.fileName '.' = pre2.length := by
      rw [h2]
      exact find_last_of_split _ _ _ hpost2
    refine ⟨pre1, pre2, post2, post1, ?_, ?_, ?_, ?_, ?_, hpre1, hpost2, ?_⟩
    · unfold ModuleResource.GetBaseName
      rw [hfirst, h1]
      exact substr_upto pre1 ('.' :: post1)
    · unfold ModuleResource.GetCompleteBaseName
      rw [hlast, h2]
      exact substr_upto pre2 ('.' :: post2)
    · unfold ModuleResource.GetSuffix
      simp only []
      rw [hlast]
      exact suffix_after d.fileName pre2 post2 hn h2
    · unfold ModuleResource.GetCompleteSuffix
      simp only []
      rw [hfirst]
      exact suffix_after d.fileName pre1 post1 hn h1
    · intro _
      constructor
      · rw [h2]
        simp
      · rw [h1]
        simp
    · exact first_split_initial '.' pre1 pre2 post1 post2 (h1.symm.trans h2) hpre1
  · refine ⟨d.fileName, d.fileName, [], [], ?_, ?_, ?_, ?_, ?_, hdot, by simp,
      List.prefix_refl _⟩
    · unfold ModuleResource.GetBaseName
      rw [find_first_of_absent _ _ hdot]
      exact substr_all _ hn
    · unfold ModuleResource.GetCompleteBaseName
      rw [find_last_of_absent _ _ hdot]
      exact substr_all _ hn
    · unfold ModuleResource.GetSuffix
      simp only []
      rw [find_last_of_absent _ _ hdot]
      exact suffix_absent _ hn
    · unfold ModuleResource.GetCompleteSuffix
      simp only []
      rw [find_first_of_absent _ _ hdot]
      exact suffix_absent _ hn
    · intro h
      exact absurd h hdot

/-- Witness of C20 at the names `archive.tar.gz`, `.` and `a.`. -/
theorem C20_name_reconstruction_witness :
    ("archive.tar.gz".toList.length ≤ npos ∧
      ∃ b cb sfx csfx,
        ModuleResource.GetBaseName { ModuleResourcePrivate.new with
          fileName := "archive.tar.gz".toList } = Except.ok b ∧
        ModuleResource.GetCompleteBaseName { ModuleResourcePrivate.new with
          fileName := "archive.tar.gz".toList } = Except.ok cb ∧
        ModuleResource.GetSuffix { ModuleResourcePrivate.new with
          fileName := "archive.tar.gz".toList } = Except.ok sfx ∧
        ModuleResource.GetCompleteSuffix { ModuleResourcePrivate.new with
          fileName := "archive.tar.gz".toList } = Except.ok csfx ∧
        cb ++ ['.'] ++ sfx = "archive.tar.gz".toList ∧
        b ++ ['.'] ++ csfx = "archive.tar.gz".toList ∧
        '.' ∉ b ∧ '.' ∉ sfx ∧ b <+: cb) ∧
    (∃ b cb sfx csfx,
        ModuleResource.GetBaseName { ModuleResourcePrivate.new with
          fileName := ['.'] } = Except.ok b ∧
        ModuleResource.GetCompleteBaseName { ModuleResourcePrivate.new with
          fileName := ['.'] } = Except.ok cb ∧
        ModuleResource.GetSuffix { ModuleResourcePrivate.new with
          fileName := ['.'] } = Except.ok sfx ∧
        ModuleResource.GetCompleteSuffix { ModuleResourcePrivate.new with
          fileName := ['.'] } = Except.ok csfx ∧
        cb ++ ['.'] ++ sfx = ['.'] ∧ b ++ ['.'] ++ csfx = ['.'] ∧
        '.' ∉ b ∧ '.' ∉ sfx ∧ b <+: cb) ∧
    (∃ b cb sfx csfx,
        ModuleResource.GetBaseName { ModuleResourcePrivate.new with
          fileName := ['a', '.'] } = Except.ok b ∧
        ModuleResource.GetCompleteBaseName { ModuleResourcePrivate.new with
          fileName := ['a', '.'] } = Except.ok cb ∧
        ModuleResource.GetSuffix { ModuleResourcePrivate.new with
          fileName := ['a', '.'] } = Except.ok sfx ∧
        ModuleResource.GetCompleteSuffix { ModuleResourcePrivate.new with
          fileName := ['a', '.'] } = Except.ok csfx ∧
        cb ++ ['.'] ++ sfx = ['a', '.'] ∧ b ++ ['.'] ++ csfx = ['a', '.'] ∧
        '.' ∉ b ∧ '.' ∉ sfx ∧ b <+: cb) :=
  ⟨⟨by decide,
      match C20_name_reconstruction
        { ModuleResourcePrivate.new with fileName := "archive.tar.gz".toList } (by decide) with
      | ⟨b, cb, sfx, csfx, h1, h2, h3, h4, h5, h6, h7, h8⟩ =>
        ⟨b, cb, sfx, csfx, h1, h2, h3, h4, (h5 (by decide)).1, (h5 (by decide)).2, h6, h7, h8⟩⟩,
    match C20_name_reconstruction
      { ModuleResourcePrivate.new with fileName := ['.'] } (by decide) with
    | ⟨b, cb, sfx, csfx, h1, h2, h3, h4, h5, h6, h7, h8⟩ =>
      ⟨b, cb, sfx, csfx, h1, h2, h3, h4, (h5 (by decide)).1, (h5 (by decide)).2, h6, h7, h8⟩,
    match C20_name_reconstruction
      { ModuleResourcePrivate.new with fileName := ['a', '.'] } (by decide) with
    | ⟨b, cb, sfx, csfx, h1, h2, h3, h4, h5, h6, h7, h8⟩ =>
      ⟨b, cb, sfx, csfx, h1, h2, h3, h4, (h5 (by decide)).1, (h5 (by decide)).2, h6, h7, h8⟩⟩

/-! ## Shared ownership -/

theorem normalize_ref (d d2 : ModuleResourcePrivate) (s : string)
    (h : normalize d s = Except.ok d2) : d2.ref = d.ref := by
  unfold normalize at h
  simp only [bind, Except.bind, pure, Except.pure] at h
  repeat' split at h
  all_goals first
    | (injection h with h; subst h; rfl)
    | (cases h)

theorem lookup_ref (store : TreeStore) (d d2 : ModuleResourcePrivate) (tr : Trace)
    (h : lookup store d = Except.ok (d2, tr)) : d2.ref = d.ref := by
  cases hrt : d.resourceTree with
  | none =>
    unfold lookup at h
    rw [hrt] at h
    cases h
  | some t =>
    rcases lookup_cases store d t hrt with c | c | c
    · rw [(Prod.mk.inj (Except.ok.inj (h.symm.trans c.2))).1]
    · rw [(Prod.mk.inj (Except.ok.inj (h.symm.trans c.2.2))).1]
    · rw [(Prod.mk.inj (Except.ok.inj (h.symm.trans c.2.2))).1]

/-- Every record made by the path constructor starts with the reference count 1. -/
theorem create_ref (store : TreeStore) (s : string) (rt : Option Nat)
    (d : ModuleResourcePrivate) (tr : Trace)
    (h : ModuleResource.create store s rt = Except.ok (d, tr)) : d.ref = 1 := by
  rw [create_unfold] at h
  cases hn : normalize (freshRecord rt) s with
  | error e =>
    rw [hn] at h
    exact absurd h (by simp [bind, Except.bind])
  | ok d1 =>
    rw [hn] at h
    have h1 := normalize_ref _ _ _ hn
    have h2 := lookup_ref store d1 d tr h
    rw [h2, h1]
    rfl

theorem Memory.d_spec (m : Memory) (h p : Nat) (hd : m.d h = some p) :
    ∃ hlt : h < m.handles.length, m.handles.get ⟨h, hlt⟩ = some p := by
  unfold Memory.d at hd
  by_cases hlt : h < m.handles.length
  · refine ⟨hlt, ?_⟩
    simpa [List.getD, List.getElem?_eq_getElem hlt] using hd
  · simp [List.getD, List.getElem?_eq_none (not_lt.mp hlt)] at hd

theorem Memory.holders_pos_of_d (m : Memory) (h p : Nat) (hd : m.d h = some p) :
    0 < m.holders p := by
  obtain ⟨hlt, hget⟩ := m.d_spec h p hd
  unfold Memory.holders
  rw [List.count_pos_iff]
  rw [← hget]
  exact List.get_mem _ _ _

/-- A live handle holds a live record. -/
theorem Memory.Consistent.live_of_d {m : Memory} (hm : m.Consistent) (h p : Nat)
    (hd : m.d h = some p) :
    ∃ r, m.heap p = some r ∧ r.ref = (m.holders p : Int) ∧ 0 < m.holders p := by
  have hpos := m.holders_pos_of_d h p hd
  cases hr : m.heap p with
  | none =>
    have := hm.2.1 p hr
    omega
  | some r => exact ⟨r, rfl, hm.1 p r hr⟩

theorem holders_set (l : List (Option Nat)) (h : Nat) (hlt : h < l.length) (q : Nat)
    (x : Option Nat) (hq : l.get ⟨h, hlt⟩ = some q) (p : Nat) :
    (l.set h x).count (some p) =
      l.count (some p) - (if q = p then 1 else 0) + (if x = some p then 1 else 0) := by
  rw [List.count_set _ _ _ _ hlt]
  have e : l[h] = some q := hq
  rw [e]
  simp

theorem holders_append (l : List (Option Nat)) (x : Option Nat) (p : Nat) :
    (l ++ [x]).count (some p) = l.count (some p) + (if x = some p then 1 else 0) := by
  rw [List.count_append, List.count_singleton]
  simp

theorem Memory.Ref_eq (m : Memory) (p : Nat) (r : ModuleResourcePrivate)
    (hr : m.heap p = some r) :
    m.Ref p = { m with heap := Function.update m.heap p (some { r with ref := r.ref + 1 }) } := by
  unfold Memory.Ref
  rw [hr]
  rfl

theorem Memory.Deref_eq (m : Memory) (p : Nat) (r : ModuleResourcePrivate)
    (hr : m.heap p = some r) :
    m.Deref p =
      ({ m with heap := Function.update m.heap p (some { r with ref := r.ref - 1 }) },
        decide (r.ref - 1 ≠ 0)) := by
  unfold Memory.Deref
  rw [hr]
  rfl

/-- The copy constructor on a live handle: one more handle, the count one higher. -/
theorem Memory.copyConstruct_eq (m : Memory) (h p : Nat) (r : ModuleResourcePrivate)
    (hd : m.d h = some p) (hr : m.heap p = some r) :
    m.copyConstruct h =
      { heap := Function.update m.heap p (some { r with ref := r.ref + 1 })
        next := m.next
        handles := m.handles ++ [some p] } := by
  unfold Memory.copyConstruct
  rw [hd]
  exact Memory.Ref_eq { m with handles := m.handles ++ [some p] } p r hr

/-- The destructor on a live handle: the handle is gone, the count one lower, the
record released when the count has become zero. -/
theorem Memory.destroy_eq (m : Memory) (h p : Nat) (r : ModuleResourcePrivate)
    (hd : m.d h = some p) (hr : m.heap p = some r) :
    m.destroy h =
      { heap := Function.update m.heap p
          (if r.ref - 1 = 0 then none else some { r with ref := r.ref - 1 })
        next := m.next
        handles := m.handles.set h none } := by
  unfold Memory.destroy
  rw [hd]
  simp only [Memory.Deref_eq m p r hr]
  by_cases h0 : r.ref - 1 = 0
  · simp [h0, Memory.delete]
  · simp [h0]

theorem Memory.Consistent.construct {m : Memory} (hm : m.Consistent)
    (r : ModuleResourcePrivate) (hr : r.ref = 1) : (m.construct r).Consistent := by
  have hfree : m.holders m.next = 0 := hm.2.1 _ (hm.2.2 _ (Nat.le_refl _))
  have hcount : ∀ q, (m.construct r).holders q = m.holders q + (if m.next = q then 1 else 0) := by
    intro q
    unfold Memory.holders Memory.construct
    rw [holders_append]
    simp
  refine ⟨?_, ?_, ?_⟩
  · intro q r2 hq
    rw [hcount]
    by_cases e : m.next = q
    · subst e
      have : r2 = r := by
        simpa [Memory.construct] using hq.symm
      rw [this, hr, hfree]
      simp
    · have hq2 : m.heap q = some r2 := by
        simpa [Memory.construct, Function.update, Ne.symm e] using hq
      simpa [e] using hm.1 q r2 hq2
  · intro q hq
    rw [hcount]
    by_cases e : m.next = q
    · subst e
      simp [Memory.construct] at hq
    · have hq2 : m.heap q = none := by
        simpa [Memory.construct, Function.update, Ne.symm e] using hq
      simpa [e] using hm.2.1 q hq2
  · intro q hq
    have hq1 : m.next + 1 ≤ q := hq
    have e : q ≠ m.next := by omega
    have := hm.2.2 q (by omega)
    simpa [Memory.construct, Function.update, e] using this

theorem Memory.Consistent.copyConstruct {m : Memory} (hm : m.Consistent) (h : Nat) :
    (m.copyConstruct h).Consistent := by
  cases hd : m.d h with
  | none =>
    unfold Memory.copyConstruct
    rw [hd]
    exact hm
  | some p =>
    obtain ⟨r, hr, href, hpos⟩ := hm.live_of_d h p hd
    rw [Memory.copyConstruct_eq m h p r hd hr]
    have hcount : ∀ q, (m.handles ++ [some p]).count (some q)
        = m.holders q + (if p = q then 1 else 0) := by
      intro q
      rw [holders_append]
      simp [Memory.holders]
    refine ⟨?_, ?_, ?_⟩
    · intro q r2 hq
      show r2.ref = ((m.handles ++ [some p]).count (some q) : Int) ∧
        0 < (m.handles ++ [some p]).count (some q)
      rw [hcount]
      by_cases e : p = q
      · subst e
        have : r2 = { r with ref := r.ref + 1 } := by
          simpa using hq.symm
        rw [this]
        simp [href]
      · have hq2 : m.heap q = some r2 := by
          simpa [Function.update, Ne.symm e] using hq
        simpa [e] using hm.1 q r2 hq2
    · intro q hq
      show (m.handles ++ [some p]).count (some q) = 0
      rw [hcount]
      by_cases e : p = q
      · subst e
        simp at hq
      · have hq2 : m.heap q = none := by
          simpa [Function.update, Ne.symm e] using hq
        simpa [e] using hm.2.1 q hq2
    · intro q hq
      have hn := hm.2.2 q hq
      have e : q ≠ p := by
        intro e
        rw [e, hr] at hn
        exact absurd hn (by simp)
      simpa [Function.update, e] using hn

theorem Memory.Consistent.destroy {m : Memory} (hm : m.Consistent) (h : Nat) :
    (m.destroy h).Consistent := by
  cases hd : m.d h with
  | none =>
    unfold Memory.destroy
    rw [hd]
    exact hm
  | some p =>
    obtain ⟨r, hr, href, hpos⟩ := hm.live_of_d h p hd
    obtain ⟨hlt, hget⟩ := m.d_spec h p hd
    rw [Memory.destroy_eq m h p r hd hr]
    have hcount : ∀ q, (m.handles.set h none).count (some q)
        = m.holders q - (if p = q then 1 else 0) := by
      intro q
      rw [holders_set m.handles h hlt p none hget q]
      simp [Memory.holders]
    refine ⟨?_, ?_, ?_⟩
    · intro q r2 hq
      show r2.ref = ((m.handles.set h none).count (some q) : Int) ∧
        0 < (m.handles.set h none).count (some q)
      rw [hcount]
      by_cases e : p = q
      · subst e
        by_cases h0 : r.ref - 1 = 0
        · simp [h0] at hq
        · have : r2 = { r with ref := r.ref - 1 } := by
            simpa [h0] using hq.symm
          rw [this]
          simp only [if_true]
          rw [href] at h0 ⊢
          omega
      · have hq2 : m.heap q = some r2 := by
          simpa [Function.update, Ne.symm e] using hq
        simpa [e] using hm.1 q r2 hq2
    · intro q hq
      show (m.handles.set h none).count (some q) = 0
      rw [hcount]
      by_cases e : p = q
      · subst e
        by_cases h0 : r.ref - 1 = 0
        · rw [href] at h0
          simp
          omega
        · simp [h0] at hq
      · have hq2 : m.heap q = none := by
          simpa [Function.update, Ne.symm e] using hq
        simpa [e] using hm.2.1 q hq2
    · intro q hq
      have hn := hm.2.2 q hq
      have e : q ≠ p := by
        intro e
        rw [e, hr] at hn
        exact absurd hn (by simp)
      simpa [Function.update, e] using hn

theorem set_same :
    ∀ (l : List (Option Nat)) (h : Nat) (x : Option Nat), l[h]? = some x → l.set h x = l
  | [], _, _, e => by simp at e
  | a :: l, 0, x, e => by
    simp at e
    simp [e]
  | a :: l, n + 1, x, e => by
    simp at e
    simp [set_same l n x e]

/-- Assignment between two handles that hold the same record, itself included,
changes nothing: the count goes up and comes down again without reaching zero. -/
theorem Memory.assign_same (m : Memory) (h resource p : Nat) (r : ModuleResourcePrivate)
    (hd : m.d h = some p) (hs : m.d resource = some p) (hr : m.heap p = some r)
    (h0 : r.ref ≠ 0) : m.assign h resource = m := by
  obtain ⟨hlt, hget⟩ := m.d_spec h p hd
  unfold Memory.assign
  rw [hd, hs]
  have hget2 : m.handles[h]? = some (some p) := by
    rw [List.getElem?_eq_getElem hlt]
    exact congrArg some hget
  simp only [set_same m.handles h (some p) hget2]
  have e1 : ({ m with handles := m.handles } : Memory) = m := rfl
  rw [e1, Memory.Ref_eq m p r hr]
  have hr2 : ({ m with heap := Function.update m.heap p (some { r with ref := r.ref + 1 }) }
      : Memory).heap p = some { r with ref := r.ref + 1 } := by
    simp
  rw [Memory.Deref_eq _ p _ hr2]
  have e2 : r.ref + 1 - 1 = r.ref := by omega
  simp only [e2]
  have e3 : (!decide (r.ref ≠ 0)) = false := by simp [h0]
  rw [e3]
  simp only [Bool.false_eq_true, if_false, Function.update_idem]
  have e4 : Function.update m.heap p (some r) = m.heap := by
    rw [← hr]
    exact Function.update_eq_self p m.heap
  rw [e4]

/-- Assignment between two handles that hold different records. -/
theorem Memory.assign_other (m : Memory) (h resource curr_d p : Nat)
    (rc rp : ModuleResourcePrivate)
    (hd : m.d h = some curr_d) (hs : m.d resource = some p) (hne : curr_d ≠ p)
    (hrc : m.heap curr_d = some rc) (hrp : m.heap p = some rp) :
    m.assign h resource =
      { heap := Function.update
          (Function.update m.heap p (some { rp with ref := rp.ref + 1 })) curr_d
          (if rc.ref - 1 = 0 then none else some { rc with ref := rc.ref - 1 })
        next := m.next
        handles := m.handles.set h (some p) } := by
  unfold Memory.assign
  rw [hd, hs]
  simp only []
  rw [Memory.Ref_eq { m with handles := m.handles.set h (some p) } p rp hrp]
  have hrc2 : ({ m with
      handles := m.handles.set h (some p)
      heap := Function.update m.heap p (some { rp with ref := rp.ref + 1 }) }
      : Memory).heap curr_d = some rc := by
    simp [Function.update, hne, hrc]
  rw [Memory.Deref_eq _ curr_d rc hrc2]
  by_cases h0 : rc.ref - 1 = 0
  · simp [h0, Memory.delete]
  · simp [h0]

theorem Memory.Consistent.assign {m : Memory} (hm : m.Consistent) (h resource : Nat) :
    (m.assign h resource).Consistent := by
  cases hd : m.d h with
  | none =>
    unfold Memory.assign
    rw [hd]
    exact hm
  | some curr_d =>
    cases hs : m.d resource with
    | none =>
      unfold Memory.assign
      rw [hd, hs]
      exact hm
    | some p =>
      obtain ⟨rc, hrc, hrefc, hposc⟩ := hm.live_of_d h curr_d hd
      obtain ⟨rp, hrp, hrefp, hposp⟩ := hm.live_of_d resource p hs
      obtain ⟨hlt, hget⟩ := m.d_spec h curr_d hd
      by_cases hne : curr_d = p
      · subst hne
        rw [Memory.assign_same m h resource curr_d rc hd hs hrc (by rw [hrefc]; omega)]
        exact hm
      · rw [Memory.assign_other m h resource curr_d p rc rp hd hs hne hrc hrp]
        have hcount : ∀ q, (m.handles.set h (some p)).count (some q)
            = m.holders q - (if curr_d = q then 1 else 0) + (if p = q then 1 else 0) := by
          intro q
          rw [holders_set m.handles h hlt curr_d (some p) hget q]
          simp [Memory.holders]
        refine ⟨?_, ?_, ?_⟩
        · intro q r2 hq
          show r2.ref = ((m.handles.set h (some p)).count (some q) : Int) ∧
            0 < (m.handles.set h (some p)).count (some q)
          rw [hcount]
          by_cases e1 : curr_d = q
          · subst e1
            by_cases h0 : rc.ref - 1 = 0
            · simp [h0] at hq
            · have : r2 = { rc with ref := rc.ref - 1 } := by
                simpa [h0] using hq.symm
              rw [this]
              simp only [if_true, if_neg (Ne.symm hne)]
              rw [hrefc] at h0 ⊢
              omega
          · by_cases e2 : p = q
            · subst e2
              have : r2 = { rp with ref := rp.ref + 1 } := by
                simpa [Function.update, Ne.symm e1] using hq.symm
              rw [this]
              simp only [if_true, if_neg e1]
              rw [hrefp]
              omega
            · have hq2 : m.heap q = some r2 := by
                simpa [Function.update, Ne.symm e1, Ne.symm e2] using hq
              simpa [e1, e2] using hm.1 q r2 hq2
        · intro q hq
          show (m.handles.set h (some p)).count (some q) = 0
          rw [hcount]
          by_cases e1 : curr_d = q
          · subst e1
            by_cases h0 : rc.ref - 1 = 0
            · rw [hrefc] at h0
              simp only [if_true, if_neg (Ne.symm hne)]
              omega
            · simp [h0] at hq
          · by_cases e2 : p = q
            · subst e2
              simp [Function.update, Ne.symm e1] at hq
            · have hq2 : m.heap q = none := by
                simpa [Function.update, Ne.symm e1, Ne.symm e2] using hq
              simpa [e1, e2] using hm.2.1 q hq2
        · intro q hq
          have hn := hm.2.2 q hq
          have e1 : q ≠ curr_d := by
            intro e
            rw [e, hrc] at hn
            exact absurd hn (by simp)
          have e2 : q ≠ p := by
            intro e
            rw [e, hrp] at hn
            exact absurd hn (by simp)
          simpa [Function.update, e1, e2] using hn

theorem Memory.Consistent.empty : Memory.empty.Consistent := by
  refine ⟨?_, ?_, ?_⟩
  · intro p r h
    simp [Memory.empty] at h
  · intro p _
    rfl
  · intro p _
    rfl

theorem Memory.Consistent.constructResult {m : Memory} (hm : m.Consistent) :
    ∀ res : Except Exn (ModuleResourcePrivate × Trace),
      (∀ r tr, res = Except.ok (r, tr) → r.ref = 1) → (m.constructResult res).Consistent
  | Except.error _, _ => hm
  | Except.ok (r, tr), h => hm.construct r (h r tr rfl)

theorem Memory.Consistent.constructFrom {m : Memory} (hm : m.Consistent)
    (store : TreeStore) (file : string) (resourceTree : Option Nat) :
    (m.constructFrom store file resourceTree).Consistent :=
  hm.constructResult _ (create_ref store file resourceTree)

theorem Memory.Consistent.step {m : Memory} (hm : m.Consistent) (op : Op) :
    (m.step op).Consistent := by
  cases op with
  | construct => exact hm.construct ModuleResource.default rfl
  | constructFrom store file resourceTree => exact hm.constructFrom store file resourceTree
  | copyConstruct resource => exact hm.copyConstruct resource
  | assign h resource => exact hm.assign h resource
  | destroy h => exact hm.destroy h

theorem Memory.Consistent.run :
    ∀ (ops : List Op) {m : Memory}, m.Consistent → (m.run ops).Consistent
  | [], _, hm => hm
  | op :: ops, _, hm => Memory.Consistent.run ops (hm.step op)

/-- After the copy constructor, the original and the copy hold the same record, which
differs from the record before only in its reference count. -/
theorem Memory.copyConstruct_holds (m : Memory) (h p : Nat) (r : ModuleResourcePrivate)
    (hd : m.d h = some p) (hr : m.heap p = some r) :
    (m.copyConstruct h).heap p = some { r with ref := r.ref + 1 } ∧
    (m.copyConstruct h).d m.handles.length = some p ∧
    (m.copyConstruct h).d h = some p := by
  obtain ⟨hlt, hget⟩ := m.d_spec h p hd
  have e : m.handles[h] = some p := hget
  rw [Memory.copyConstruct_eq m h p r hd hr]
  refine ⟨by simp, ?_, ?_⟩
  · simp [Memory.d, List.getD]
  · show (m.handles ++ [some p]).getD h none = some p
    rw [List.getD_eq_getElem?_getD, List.getElem?_append_left hlt,
      List.getElem?_eq_getElem hlt, e]
    rfl

/-- Copy a handle, then destroy the original: the heap is as before, and the copy
holds the record. -/
theorem Memory.copy_then_destroy (m : Memory) (h p : Nat) (r : ModuleResourcePrivate)
    (hd : m.d h = some p) (hr : m.heap p = some r) (h0 : r.ref ≠ 0) :
    ((m.copyConstruct h).destroy h).heap = m.heap ∧
    ((m.copyConstruct h).destroy h).d m.handles.length = some p ∧
    ((m.copyConstruct h).destroy h).d h = none := by
  obtain ⟨hlt, hget⟩ := m.d_spec h p hd
  obtain ⟨h1, h2, h3⟩ := m.copyConstruct_holds h p r hd hr
  rw [Memory.destroy_eq (m.copyConstruct h) h p _ h3 h1]
  rw [Memory.copyConstruct_eq m h p r hd hr]
  have e2 : r.ref + 1 - 1 = r.ref := by omega
  refine ⟨?_, ?_, ?_⟩
  · simp only [e2, if_neg h0, Function.update_idem]
    rw [← hr]
    exact Function.update_eq_self p m.heap
  · have hne : h ≠ m.handles.length := Nat.ne_of_lt hlt
    simp [Memory.d, List.getD, List.getElem?_set, hne]
  · show ((m.handles ++ [some p]).set h none).getD h none = none
    have hlt2 : h < (m.handles ++ [some p]).length := by
      rw [List.length_append]
      omega
    rw [List.getD_eq_getElem?_getD, List.getElem?_set, if_pos rfl, if_pos hlt2]
    rfl

/-- C17 (hash depends on the resource path only): for every hash function on strings
and any two handles, equal resource paths give equal hashes whatever trees the handles
reference; so `a == b` implies equal hashes, changing the tree reference does not
change the hash, and after the copy constructor the original and the copy hold one
record, whose hash is the hash of the original before. -/
theorem C17_hash_path_only (hashFn : string → Nat) (a b : ModuleResourcePrivate) :
    (ModuleResource.GetResourcePath a = ModuleResource.GetResourcePath b →
      ModuleResource.Hash hashFn a = ModuleResource.Hash hashFn b) ∧
    (ModuleResource.eq a b = true →
      ModuleResource.Hash hashFn a = ModuleResource.Hash hashFn b) ∧
    (∀ rt : Option Nat, ModuleResource.Hash hashFn { a with resourceTree := rt }
      = ModuleResource.Hash hashFn a) ∧
    (∀ (m : Memory) (h p : Nat), m.d h = some p → m.heap p = some a →
      ∃ r, (m.copyConstruct h).heap p = some r ∧
        (m.copyConstruct h).d h = some p ∧
        (m.copyConstruct h).d m.handles.length = some p ∧
        ModuleResource.Hash hashFn r = ModuleResource.Hash hashFn a) := by
  have h1 : ModuleResource.GetResourcePath a = ModuleResource.GetResourcePath b →
      ModuleResource.Hash hashFn a = ModuleResource.Hash hashFn b := by
    intro h
    unfold ModuleResource.Hash
    rw [h]
  refine ⟨h1, ?_, fun _ => rfl, ?_⟩
  · intro h
    apply h1
    simp [ModuleResource.eq] at h
    exact h.2
  · intro m h p hd hr
    obtain ⟨e1, e2, e3⟩ := m.copyConstruct_holds h p a hd hr
    exact ⟨_, e1, e3, e2, rfl⟩

/-- Witness of C17 at two handles with the path `/a` over the trees at addresses 0
and 1, with the length of the string as hash function. -/
theorem C17_hash_path_only_witness :
    ModuleResource.Hash (fun s => s.length)
        { ModuleResourcePrivate.new with resourceTree := some 0, filePath := ['/', 'a'] }
      = ModuleResource.Hash (fun s => s.length)
        { ModuleResourcePrivate.new with resourceTree := some 1, filePath := ['/', 'a'] } :=
  (C17_hash_path_only (fun s => s.length)
    { ModuleResourcePrivate.new with resourceTree := some 0, filePath := ['/', 'a'] }
    { ModuleResourcePrivate.new with resourceTree := some 1, filePath := ['/', 'a'] }).1 rfl

/-- C18 (shared ownership): after every sequence of construct, copy-construct, assign
and destroy operations, the reference count of each live record is the number of live
handles that hold it and is positive, and an address that no handle holds is released.
For every live handle `h` holding the record at `p`: the record is live; copying `h`
and destroying `h` leaves the whole heap as it was, the copy holding `p`; and the
self-assignment `h = h` leaves the memory as it was. -/
theorem C18_shared_ownership (ops : List Op) :
    (∀ p r, (Memory.empty.run ops).heap p = some r →
      r.ref = ((Memory.empty.run ops).holders p : Int) ∧
      0 < (Memory.empty.run ops).holders p) ∧
    (∀ p, (Memory.empty.run ops).heap p = none ↔ (Memory.empty.run ops).holders p = 0) ∧
    (∀ h p, (Memory.empty.run ops).d h = some p →
      (∃ r, (Memory.empty.run ops).heap p = some r) ∧
      (((Memory.empty.run ops).copyConstruct h).destroy h).heap
        = (Memory.empty.run ops).heap ∧
      (((Memory.empty.run ops).copyConstruct h).destroy h).d
        (Memory.empty.run ops).handles.length = some p ∧
      (((Memory.empty.run ops).copyConstruct h).destroy h).d h = none ∧
      (Memory.empty.run ops).assign h h = Memory.empty.run ops) := by
  have hm : (Memory.empty.run ops).Consistent :=
    Memory.Consistent.run ops Memory.Consistent.empty
  refine ⟨hm.1, ?_, ?_⟩
  · intro p
    constructor
    · exact hm.2.1 p
    · intro h0
      cases hr : (Memory.empty.run ops).heap p with
      | none => rfl
      | some r =>
        have := (hm.1 p r hr).2
        omega
  · intro h p hd
    obtain ⟨r, hr, href, hpos⟩ := hm.live_of_d h p hd
    have h0 : r.ref ≠ 0 := by
      rw [href]
      omega
    obtain ⟨e1, e2, e3⟩ := Memory.copy_then_destroy _ h p r hd hr h0
    exact ⟨⟨r, hr⟩, e1, e2, e3, Memory.assign_same _ h h p r hd hd hr h0⟩

/-- Witness of C18: construct a handle, copy it, assign the copy to the original; for
handle 0, which holds the record at address 0 together with handle 1. -/
theorem C18_shared_ownership_witness :
    (∃ r, (Memory.empty.run [Op.construct, Op.copyConstruct 0, Op.assign 0 1]).heap 0
      = some r) ∧
    (((Memory.empty.run [Op.construct, Op.copyConstruct 0, Op.assign 0 1]).copyConstruct
      0).destroy 0).heap
      = (Memory.empty.run [Op.construct, Op.copyConstruct 0, Op.assign 0 1]).heap ∧
    (((Memory.empty.run [Op.construct, Op.copyConstruct 0, Op.assign 0 1]).copyConstruct
      0).destroy 0).d
        (Memory.empty.run [Op.construct, Op.copyConstruct 0, Op.assign 0 1]).handles.length
      = some 0 ∧
    (((Memory.empty.run [Op.construct, Op.copyConstruct 0, Op.assign 0 1]).copyConstruct
      0).destroy 0).d 0 = none ∧
    (Memory.empty.run [Op.construct, Op.copyConstruct 0, Op.assign 0 1]).assign 0 0
      = Memory.empty.run [Op.construct, Op.copyConstruct 0, Op.assign 0 1] :=
  (C18_shared_ownership [Op.construct, Op.copyConstruct 0, Op.assign 0 1]).2.2 0 0 rfl

/-- The counts along a small run: one handle, then two on the same record, then the
original destroyed, then the copy destroyed and the record released. -/
theorem ownership_example :
    ((Memory.empty.run [Op.construct]).holders 0,
      ((Memory.empty.run [Op.construct]).heap 0).map (fun r => r.ref),
      (Memory.empty.run [Op.construct, Op.copyConstruct 0]).holders 0,
      ((Memory.empty.run [Op.construct, Op.copyConstruct 0]).heap 0).map (fun r => r.ref),
      (Memory.empty.run [Op.construct, Op.copyConstruct 0, Op.destroy 0]).holders 0,
      ((Memory.empty.run [Op.construct, Op.copyConstruct 0, Op.destroy 0]).heap 0).map
        (fun r => r.ref),
      ((Memory.empty.run [Op.construct, Op.copyConstruct 0, Op.destroy 0,
        Op.destroy 1]).heap 0).map (fun r => r.ref))
    = (1, some 1, 2, some 2, 1, some 1, none) :=
  rfl

/-- On every handle with `IsValid() == false`, `GetData()` is null. -/
theorem getData_of_invalid (store : TreeStore) (d : ModuleResourcePrivate)
    (hv : (ModuleResource.IsValid store d).1 = false) :
    (ModuleResource.GetData store d).1 = none := by
  unfold ModuleResource.GetData
  simp [hv]

end us
